import Mathlib

/-!
Verification of the ironwood routing core (the `router` in `network/router.go`
and the peer registry in `network/peers.go`) against its specification.

The Go code is shallowly embedded: Go maps become association lists (iteration
order of a Go map is unspecified, so list order models an arbitrary iteration
order), machine integers become `Nat`, byte strings become `List Nat`, and
fallible decoding returns `Option`.  Components of the repository that are
outside the provided sources (the internal merkletree package, the wire varint
helpers, the cryptographic primitives and the peer-side message handlers) are
modelled from the spec; each such definition is marked in its doc comment.

Layout: all definitions come first, followed by all theorems.
-/

namespace Ironwood

/-! ## Definitions -/

/-! ### Association-list maps

Go `map[K]V` is modelled as an association list.  `mapInsert` replaces the
first binding of the key (or appends), `mapErase` removes the first binding,
matching Go map update/delete on maps whose keys are distinct (`nodupKeys`). -/

section MapOpsDefs

variable {α β : Type} [DecidableEq α]

def mapLookup (k : α) : List (α × β) → Option β
  | [] => none
  | p :: rest => if p.1 = k then some p.2 else mapLookup k rest

def mapInsert (k : α) (v : β) : List (α × β) → List (α × β)
  | [] => [(k, v)]
  | p :: rest => if p.1 = k then (k, v) :: rest else p :: mapInsert k v rest

def mapErase (k : α) : List (α × β) → List (α × β)
  | [] => []
  | p :: rest => if p.1 = k then rest else p :: mapErase k rest

def keysOf (m : List (α × β)) : List α := m.map Prod.fst

def nodupKeys (m : List (α × β)) : Prop := (keysOf m).Nodup

instance (m : List (α × β)) : Decidable (nodupKeys m) := by
  unfold nodupKeys; infer_instance

end MapOpsDefs

/-! ### Public keys

`publicKey` is a fixed-size byte string in Go ordered lexicographically
(`treeLess` in the source; the spec: "totally ordered lexicographically").
We model keys as byte lists; `keyLess` is the source's `treeLess`. -/

abbrev publicKey := List Nat

/-- `treeLess` from the source: byte-wise lexicographic strict order. -/
def keyLess : publicKey → publicKey → Bool
  | a :: as, b :: bs =>
    if a < b then true else if b < a then false else keyLess as bs
  | _, _ => false

/-! ### Wire encoding

The struct-level `encode`/`chop`/`decode` functions below are translated from
the source (`routerSigReq.encode` etc.).  The low-level helpers
`wireAppendUint`/`wireChopUint`/`wireChopSlice` live in `network/wire.go`,
which is not among the provided sources; they are modelled from the spec
("integers are varint unless stated; fixed-size keys/signatures are raw
bytes"). -/

namespace wire

def publicKeySize : Nat := 32

def signatureSize : Nat := 64

def digestSize : Nat := 32

/-- Modelled from the spec: continuation-marked 7-bit groups of `n`, most
significant first (empty for `n = 0`); each group carries the high bit. -/
def encGroups (n : Nat) : List Nat :=
  if h : n = 0 then [] else encGroups (n / 128) ++ [n % 128 + 128]
termination_by n
decreasing_by exact Nat.div_lt_self (Nat.pos_of_ne_zero h) (by decide)

/-- Modelled from the spec: varint encoding of `n` (continuation groups, then
a final group without the continuation bit). -/
def encUint (n : Nat) : List Nat :=
  encGroups (n / 128) ++ [n % 128]

/-- `wireAppendUint`: append the varint encoding of `n` to `out`. -/
def wireAppendUint (out : List Nat) (n : Nat) : List Nat :=
  out ++ encUint n

def chopUintGo (acc : Nat) : List Nat → Option (Nat × List Nat)
  | [] => none
  | b :: rest =>
    if b < 128 then some (acc * 128 + b, rest)
    else chopUintGo (acc * 128 + (b - 128)) rest

/-- Modelled from the spec: varint decoding; consumes continuation-marked
bytes then one final byte, returning the value and the remaining bytes. -/
def wireChopUint (data : List Nat) : Option (Nat × List Nat) :=
  chopUintGo 0 data

/-- `wireChopSlice` for a fixed-size target of length `k`: take the first `k`
bytes of the input. -/
def wireChopSlice (k : Nat) (data : List Nat) : Option (List Nat × List Nat) :=
  if k ≤ data.length then some (data.take k, data.drop k) else none

/-- `routerSigReq`: sequence number and nonce (both u64 in Go). -/
structure routerSigReq where
  seq : Nat
  nonce : Nat
deriving DecidableEq

def routerSigReq.encode (req : routerSigReq) (out : List Nat) : List Nat :=
  wireAppendUint (wireAppendUint out req.seq) req.nonce

def routerSigReq.chop (data : List Nat) : Option (routerSigReq × List Nat) :=
  match wireChopUint data with
  | none => none
  | some (seq, d1) =>
    match wireChopUint d1 with
    | none => none
    | some (nonce, d2) => some (⟨seq, nonce⟩, d2)

def routerSigReq.decode (data : List Nat) : Option routerSigReq :=
  match routerSigReq.chop data with
  | some (req, []) => some req
  | _ => none

/-- `routerSigRes`: the signed response, embedding the request. -/
structure routerSigRes extends routerSigReq where
  port : Nat
  psig : List Nat
deriving DecidableEq

def routerSigRes.encode (res : routerSigRes) (out : List Nat) : List Nat :=
  wireAppendUint (res.torouterSigReq.encode out) res.port ++ res.psig

def routerSigRes.chop (data : List Nat) : Option (routerSigRes × List Nat) :=
  match routerSigReq.chop data with
  | none => none
  | some (req, d1) =>
    match wireChopUint d1 with
    | none => none
    | some (port, d2) =>
      match wireChopSlice signatureSize d2 with
      | none => none
      | some (psig, d3) => some (⟨req, port, psig⟩, d3)

def routerSigRes.decode (data : List Nat) : Option routerSigRes :=
  match routerSigRes.chop data with
  | some (res, []) => some res
  | _ => none

/-- `routerAnnounce`: a node's signed claim naming its parent. -/
structure routerAnnounce extends routerSigRes where
  key : List Nat
  parent : List Nat
  sig : List Nat
deriving DecidableEq

def routerAnnounce.encode (ann : routerAnnounce) (out : List Nat) : List Nat :=
  ann.torouterSigRes.encode (out ++ ann.key ++ ann.parent) ++ ann.sig

def routerAnnounce.decode (data : List Nat) : Option routerAnnounce :=
  match wireChopSlice publicKeySize data with
  | none => none
  | some (key, d1) =>
    match wireChopSlice publicKeySize d1 with
    | none => none
    | some (parent, d2) =>
      match routerSigRes.chop d2 with
      | none => none
      | some (res, d3) =>
        match wireChopSlice signatureSize d3 with
        | some (sig, []) => some ⟨res, key, parent, sig⟩
        | _ => none

/-- `routerMerkleReq`: a prefix of the key space (`plen` bits of `pfx`).
The Go field names are `prefixLen` and `prefix`. -/
structure routerMerkleReq where
  plen : Nat
  pfx : List Nat
deriving DecidableEq

def routerMerkleReq.encode (req : routerMerkleReq) (out : List Nat) : List Nat :=
  wireAppendUint out req.plen ++ req.pfx

def routerMerkleReq.chop (data : List Nat) : Option (routerMerkleReq × List Nat) :=
  match wireChopUint data with
  | none => none
  | some (plen, d1) =>
    match wireChopSlice publicKeySize d1 with
    | none => none
    | some (pfx, d2) => some (⟨plen, pfx⟩, d2)

def routerMerkleReq.decode (data : List Nat) : Option routerMerkleReq :=
  match routerMerkleReq.chop data with
  | some (req, []) => some req
  | _ => none

/-- `routerMerkleRes`: the request plus the subtree digest at that prefix. -/
structure routerMerkleRes extends routerMerkleReq where
  digest : List Nat
deriving DecidableEq

def routerMerkleRes.encode (res : routerMerkleRes) (out : List Nat) : List Nat :=
  res.torouterMerkleReq.encode out ++ res.digest

def routerMerkleRes.chop (data : List Nat) : Option (routerMerkleRes × List Nat) :=
  match routerMerkleReq.chop data with
  | none => none
  | some (req, d1) =>
    match wireChopSlice digestSize d1 with
    | none => none
    | some (digest, d2) => some (⟨req, digest⟩, d2)

def routerMerkleRes.decode (data : List Nat) : Option routerMerkleRes :=
  match routerMerkleRes.chop data with
  | some (res, []) => some res
  | _ => none

end wire

/-! ### Router state and the announcement CRDT

Translated from `router.go`.  The cryptographic primitives are external
collaborators (out of scope per the spec), so signatures are modelled
symbolically: a signature records the signer and the signed bytes, and
`verify` checks both.  Timers are modelled as data: each entry records a
fresh identity (`tid`, modelling Go's pointer identity used by the
`timers[key] == timer` check) and the scheduled delay; firing a timer is the
explicit transition `Router.fireTimer`.  The `_fix` calls made by the
handlers are reported as a returned flag rather than inlined (parent
selection is a separate component).  Fields of the Go router not touched by
the modelled operations (sig-exchange maps, bloom state, pathfinder) are
omitted. -/

/-- Symbolic signature: the signer and the signed bytes. -/
structure signature where
  signer : publicKey
  message : List Nat
deriving DecidableEq

/-- Symbolic `sign`: a private key is identified with its public key. -/
def sign (priv : publicKey) (msg : List Nat) : signature :=
  ⟨priv, msg⟩

/-- Symbolic verification of a signature. -/
def verify (k : publicKey) (msg : List Nat) (s : signature) : Bool :=
  s.signer = k ∧ s.message = msg

/-- `routerSigReq` of the router component (symbolic-signature world). -/
structure rSigReq where
  seq : Nat
  nonce : Nat
deriving DecidableEq

/-- `routerSigReq.bytesForSig`: `node ‖ parent ‖ varint(seq) ‖ varint(nonce)`. -/
def rSigReq.bytesForSig (req : rSigReq) (node parent : publicKey) : List Nat :=
  node ++ parent ++ wire.encUint req.seq ++ wire.encUint req.nonce

/-- `routerSigRes` of the router component. -/
structure rSigRes extends rSigReq where
  port : Nat
  psig : signature
deriving DecidableEq

/-- `routerSigRes.bytesForSig`: the request bytes followed by the port. -/
def rSigRes.bytesForSig (res : rSigRes) (node parent : publicKey) : List Nat :=
  res.torSigReq.bytesForSig node parent ++ wire.encUint res.port

/-- `routerAnnounce` of the router component. -/
structure rAnnounce extends rSigRes where
  key : publicKey
  parent : publicKey
  sig : signature
deriving DecidableEq

/-- `routerAnnounce.check`: `port==0 ⟹ key==parent`, the node's own signature
and the parent's signature must verify over the canonical bytes. -/
def rAnnounce.check (ann : rAnnounce) : Bool :=
  if ann.port = 0 ∧ ann.key ≠ ann.parent then false
  else
    let bs := ann.torSigRes.bytesForSig ann.key ann.parent
    verify ann.key bs ann.sig && verify ann.parent bs ann.psig

/-- `routerInfo`: the stored form of an accepted announcement. -/
structure routerInfo extends rSigRes where
  parent : publicKey
  sig : signature
  expired : Bool
deriving DecidableEq

/-- `routerInfo.getAnnounce`: reconstruct the announcement for `key`. -/
def routerInfo.getAnnounce (info : routerInfo) (key : publicKey) : rAnnounce :=
  ⟨info.torSigRes, key, info.parent, info.sig⟩

/-- A peer link: priority, the time the link came up, and its local port. -/
structure Peer where
  prio : Nat
  time : Nat
  port : Nat
deriving DecidableEq

/-- Timer entry: identity (`tid`, modelling Go timer pointer identity) and
the scheduled delay. -/
structure TimerEntry where
  tid : Nat
  delay : Nat
deriving DecidableEq

/-- The configuration constants used by the modelled operations. -/
structure Config where
  routerTimeout : Nat
  routerRefresh : Nat
  maxInfos : Nat
deriving DecidableEq

/-- The router state (the fields used by the modelled operations). -/
structure Router where
  selfKey : publicKey
  config : Config
  infos : List (publicKey × routerInfo)
  timers : List (publicKey × TimerEntry)
  cache : List (publicKey × List Nat)
  peers : List (publicKey × List Peer)
  refresh : Bool
  nextTid : Nat
deriving DecidableEq

/-- The Go zero-value `publicKey` (all zero bytes). -/
def zeroKey : publicKey := List.replicate wire.publicKeySize 0

/-- The CRDT comparison in `_update` (the `XXX DO NOT CHANGE XXX` switch):
decides whether announcement `ann` replaces stored `info` for the same key. -/
def updateAccepts (info : routerInfo) (ann : rAnnounce) : Bool :=
  if info.seq > ann.seq then false
  else if info.seq < ann.seq then true
  else if keyLess info.parent ann.parent then false
  else if keyLess ann.parent info.parent then true
  else if ann.nonce < info.nonce then true
  else false

/-- The `routerInfo` built from an accepted announcement in `_update`. -/
def annInfo (ann : rAnnounce) : routerInfo :=
  ⟨ann.torSigRes, ann.parent, ann.sig, false⟩

/-- The timer delay chosen in `_update`: `routerRefresh + jitter` for the
local key (jitter is the injected random 0..1023 ms), `routerTimeout`
otherwise. -/
def updateDelay (r : Router) (key : publicKey) (jitter : Nat) : Nat :=
  if key = r.selfKey then r.config.routerRefresh + jitter
  else r.config.routerTimeout

/-- The accept path of `_update`: reset the path cache, store the info,
replace the key's timer with a freshly scheduled one. -/
def acceptUpdate (r : Router) (ann : rAnnounce) (jitter : Nat) : Router :=
  { r with
    cache := [],
    infos := mapInsert ann.key (annInfo ann) r.infos,
    timers := mapInsert ann.key ⟨r.nextTid, updateDelay r ann.key jitter⟩ r.timers,
    nextTid := r.nextTid + 1 }

/-- `_update`: apply the CRDT comparison when the key is known, otherwise
accept unconditionally; returns the Go function's boolean and the new state. -/
def Router.update (r : Router) (ann : rAnnounce) (jitter : Nat) : Bool × Router :=
  match mapLookup ann.key r.infos with
  | some info =>
    if updateAccepts info ann then (true, acceptUpdate r ann jitter)
    else (false, r)
  | none => (true, acceptUpdate r ann jitter)

/-- One step of the worst-key fold in `_handleAnnounce`: skip the self key;
otherwise `if !found || worst.less(k) { worst, found = k, true }`. -/
def worstStep (self : publicKey) (acc : Bool × publicKey) (k : publicKey) :
    Bool × publicKey :=
  if k = self then acc
  else if (!acc.1 || keyLess acc.2 k) then (true, k)
  else acc

/-- The fold in `_handleAnnounce` that finds the worst (highest) non-self
key, starting from Go's zero values `(found, worst) = (false, zeroKey)`. -/
def worstFold (ks : List publicKey) (self : publicKey) : Bool × publicKey :=
  ks.foldl (worstStep self) (false, zeroKey)

/-- The `(doUpdate, found, worst)` computation at the top of
`_handleAnnounce`: below capacity or known key always allows the update; at
capacity a new key is allowed only if below the worst non-self key. -/
def handleAnnounceGate (r : Router) (ann : rAnnounce) : Bool × Bool × publicKey :=
  if r.infos.length < r.config.maxInfos then (true, false, zeroKey)
  else if (mapLookup ann.key r.infos).isSome then (true, false, zeroKey)
  else
    let fw := worstFold (keysOf r.infos) r.selfKey
    (keyLess ann.key fw.2, fw.1, fw.2)

/-- `_handleAnnounce`: returns the new state, whether `_fix` was scheduled,
and the announcements sent back to the sender (the active code sends none;
the send-back-on-reject path is commented out in the source). -/
def Router.handleAnnounce (r : Router) (ann : rAnnounce) (jitter : Nat) :
    Router × Bool × List rAnnounce :=
  let gate := handleAnnounceGate r ann
  if gate.1 then
    let u := r.update ann jitter
    if u.1 then
      let r2 :=
        if gate.2.1 then
          { u.2 with
            infos := mapErase gate.2.2 u.2.infos,
            timers := mapErase gate.2.2 u.2.timers,
            cache := [] }
        else u.2
      let r3 := if ann.key = r2.selfKey then { r2 with refresh := true } else r2
      (r3, true, [])
    else (r, false, [])
  else (r, false, [])

/-- Modelled from the spec: the peer-side announce handler, which is not
among the provided sources, validates an incoming announcement
("On accept: validate signatures ...; validate `port==0 ⟹ key==parent`")
and drops invalid ones before handing them to `_handleAnnounce`. -/
def Router.handleAnnounceChecked (r : Router) (ann : rAnnounce) (jitter : Nat) :
    Router :=
  if ann.check then (r.handleAnnounce ann jitter).1 else r

/-- Every stored info reconstructs to an announcement passing
`routerAnnounce.check`. -/
def GoodInfos (r : Router) : Prop :=
  ∀ k info, mapLookup k r.infos = some info →
    (routerInfo.getAnnounce info k).check = true

/-- The timer callback installed by `_update` (both branches), as an explicit
transition.  For the local key it sets `refresh` and schedules `_fix`; for a
remote key the first fire marks the info expired and reschedules the same
timer at `2·routerTimeout`, and the next fire deletes the info and timer.
The returned flag reports whether `_fix` was scheduled.  Stale callbacks
(timer identity mismatch) are no-ops. -/
def Router.fireTimer (r : Router) (key : publicKey) (tid : Nat) :
    Router × Bool :=
  match mapLookup key r.timers with
  | none => (r, false)
  | some t =>
    if t.tid = tid then
      if key = r.selfKey then ({ r with refresh := true }, true)
      else
        match mapLookup key r.infos with
        | some info =>
          if info.expired then
            ({ r with
                infos := mapErase key r.infos,
                timers := mapErase key r.timers,
                cache := [] }, true)
          else
            ({ r with
                infos := mapInsert key { info with expired := true } r.infos,
                timers := mapInsert key
                  ⟨t.tid, 2 * r.config.routerTimeout⟩ r.timers }, true)
        | none =>
          ({ r with
              infos := mapErase key r.infos,
              timers := mapErase key r.timers,
              cache := [] }, true)
    else (r, false)

/-! ### Forwarding (`_getRootAndPath`, `_getDist`, `_lookup`)

Translated from the source.  `_getRootAndPath` terminates in Go because the
visited set grows inside the finite info map; the recursion here carries
fuel `|infos| + 1`, which by the same argument is never exhausted (the
fuel-out result equals the dead-end result). -/

/-- The traffic fields used by `_lookup` (`path`, `watermark`, `dest`);
remaining fields of the Go traffic struct are not used here. -/
structure Traffic where
  path : List Nat
  watermark : Nat
  dest : publicKey
deriving DecidableEq

def getRootAndPathGo (infos : List (publicKey × routerInfo)) (dest : publicKey) :
    Nat → List publicKey → List Nat → publicKey → publicKey × List Nat
  | 0, _, _, _ => (dest, [])
  | fuel + 1, visited, ports, next =>
    if next ∈ visited then (dest, [])
    else
      match mapLookup next infos with
      | none => (dest, [])
      | some info =>
        if info.expired then (dest, [])
        else if next = info.parent then (next, ports)
        else
          getRootAndPathGo infos dest fuel
            (next :: visited) (info.port :: ports) info.parent

/-- `_getRootAndPath`: walk parent edges (skipping expired infos) to the
root, collecting the ports in root-to-destination order (the Go code appends
then reverses; here the accumulator conses, which yields the same order). -/
def Router.getRootAndPath (r : Router) (dest : publicKey) :
    publicKey × List Nat :=
  getRootAndPathGo r.infos dest (r.infos.length + 1) [] [] dest

/-- The common-prefix length of two port paths. -/
def commonPrefixLen : List Nat → List Nat → Nat
  | a :: as, b :: bs => if a = b then commonPrefixLen as bs + 1 else 0
  | _, _ => 0

/-- The distance computation in `_getDist`:
`|keyPath| + |destPath| - 2·commonPrefix`. -/
def distCalc (keyPath destPath : List Nat) : Nat :=
  keyPath.length + destPath.length - 2 * commonPrefixLen keyPath destPath

/-- `_getDist`: tree distance from `key` to the path `destPath`, consulting
and filling the per-key path cache (the returned router carries the updated
cache). -/
def Router.getDist (r : Router) (destPath : List Nat) (key : publicKey) :
    Nat × Router :=
  match mapLookup key r.cache with
  | some keyPath => (distCalc keyPath destPath, r)
  | none =>
    let keyPath := (r.getRootAndPath key).2
    (distCalc keyPath destPath,
      { r with cache := mapInsert key keyPath r.cache })

/-- One step of the inner link loop in `_lookup`: a scanned link is skipped
when its `prio` is higher than the current best's, or when its `time` is
after the current best's; otherwise it becomes the best. -/
def pickStep (best : Option Peer) (p : Peer) : Option Peer :=
  match best with
  | some bp =>
    if p.prio > bp.prio then best
    else if p.time > bp.time then best
    else some p
  | none => some p

/-- The inner loop of `_lookup` over one key's parallel links. -/
def pickLink (b : Option Peer) (ps : List Peer) : Option Peer :=
  ps.foldl pickStep b

/-- One step of the peer fold in `_lookup`: accumulator is
`(router, bestPeer, bestDist)`. -/
def lookupStep (destPath : List Nat) (acc : Router × Option Peer × Nat)
    (kps : publicKey × List Peer) : Router × Option Peer × Nat :=
  let dr := acc.1.getDist destPath kps.1
  if dr.1 < acc.2.2 then (dr.2, pickLink acc.2.1 kps.2, dr.1)
  else (dr.2, acc.2.1, acc.2.2)

/-- `_lookup`: drop unless this node is strictly closer than the incoming
watermark; otherwise lower the watermark to the self distance and scan the
peers for a strictly closer next hop.  Returns the updated router (cache),
the chosen peer, and the (possibly updated) traffic. -/
def Router.lookup (r : Router) (tr : Traffic) : Router × Option Peer × Traffic :=
  let dr := r.getDist tr.path r.selfKey
  if dr.1 < tr.watermark then
    let tr1 := { tr with watermark := dr.1 }
    let acc := dr.2.peers.foldl (lookupStep tr.path) (dr.2, none, dr.1)
    (acc.1, acc.2.1, tr1)
  else (dr.2, none, tr)

/-- The number of consecutive successful forwarding hops of a packet through
a sequence of routers (each hop re-runs `_lookup` on the traffic produced by
the previous hop). -/
def hopCount : List Router → Traffic → Nat
  | [], _ => 0
  | r :: rs, tr =>
    match (r.lookup tr).2.1 with
    | some _ => hopCount rs (r.lookup tr).2.2 + 1
    | none => 0

/-! ### Merkle tree and `handleMerkleReq`

The internal merkletree package is not among the provided sources; it is
modelled from the spec ("a binary trie over keys of fixed bit-length `K`"):
keys are bit lists of length `KeyBits`, a tree node is nil or carries a
digest and two child pointers, `nodeFor` descends as far as the prefix
matches.  `handleMerkleReq` itself is translated from the source; the
announcement sent in the leaf case is represented by the stored value of
`infos` at the leaf key (the payload is opaque here). -/

namespace merkle

/-- Bit length of a key: 8 bits per key byte. -/
def KeyBits : Nat := 8 * wire.publicKeySize

/-- A (possibly nil) Merkle trie node pointer. -/
inductive ONode where
  | nil
  | mk (digest : Nat) (left right : ONode)
deriving DecidableEq

/-- `Tree.NodeFor`: descend along the first bits of the key while the
corresponding child exists; returns the reached node and how many bits
matched. -/
def nodeForBits : ONode → List Bool → ONode × Nat
  | n, [] => (n, 0)
  | ONode.nil, _ :: _ => (ONode.nil, 0)
  | ONode.mk d l r, false :: bs =>
    match l with
    | ONode.nil => (ONode.mk d l r, 0)
    | ONode.mk dl a c =>
      let p := nodeForBits (ONode.mk dl a c) bs
      (p.1, p.2 + 1)
  | ONode.mk d l r, true :: bs =>
    match r with
    | ONode.nil => (ONode.mk d l r, 0)
    | ONode.mk dr a c =>
      let p := nodeForBits (ONode.mk dr a c) bs
      (p.1, p.2 + 1)

/-- What `handleMerkleReq` sends in response (at most one message; `panic`
marks the source's `panic("this should never happen")` branches). -/
inductive MerkleReply where
  | nothing
  | res (pfx : List Bool) (plen : Nat) (digest : Nat)
  | ann (pfx : List Bool) (payload : Nat)
  | panic
deriving DecidableEq

/-- The single-child-skipping loop of `handleMerkleReq`: two non-nil
children reply with a `MerkleRes`; a single child is followed, setting the
prefix bit at the current length; a leaf replies with the stored
announcement for the (fully extended) prefix. -/
def merkleLoop (infos : List (List Bool × Nat)) :
    ONode → List Bool → Nat → MerkleReply
  | ONode.mk d (ONode.mk dl a b) (ONode.mk dr c e), pfx, plen =>
    let _ := (dl, a, b, dr, c, e)
    MerkleReply.res pfx plen d
  | ONode.mk _ (ONode.mk dl a b) ONode.nil, pfx, plen =>
    merkleLoop infos (ONode.mk dl a b) (pfx.set plen false) (plen + 1)
  | ONode.mk _ ONode.nil (ONode.mk dr c e), pfx, plen =>
    merkleLoop infos (ONode.mk dr c e) (pfx.set plen true) (plen + 1)
  | ONode.mk _ ONode.nil ONode.nil, pfx, plen =>
    if plen = KeyBits then
      match mapLookup pfx infos with
      | some payload => MerkleReply.ann pfx payload
      | none => MerkleReply.panic
    else MerkleReply.panic
  | ONode.nil, _, _ => MerkleReply.panic

/-- The request handled by `handleMerkleReq` (bit-vector view of
`routerMerkleReq`). -/
structure MerkleReqB where
  plen : Nat
  pfx : List Bool
deriving DecidableEq

/-- `handleMerkleReq`: locate the deepest node matching the prefix; if fewer
than `plen` bits matched, send nothing; otherwise run the
single-child-skipping loop. -/
def handleMerkleReq (merk : ONode) (infos : List (List Bool × Nat))
    (req : MerkleReqB) : MerkleReply :=
  let np := nodeForBits merk (req.pfx.take req.plen)
  if np.2 ≠ req.plen then MerkleReply.nothing
  else merkleLoop infos np.1 req.pfx req.plen

/-- The chain-following function described by the spec ("descend through
single-child chains"), used to state what `handleMerkleReq` replies. -/
def follow : ONode → List Bool → Nat → ONode × List Bool × Nat
  | ONode.mk d (ONode.mk dl a b) (ONode.mk dr c e), pfx, plen =>
    (ONode.mk d (ONode.mk dl a b) (ONode.mk dr c e), pfx, plen)
  | ONode.mk _ (ONode.mk dl a b) ONode.nil, pfx, plen =>
    follow (ONode.mk dl a b) (pfx.set plen false) (plen + 1)
  | ONode.mk _ ONode.nil (ONode.mk dr c e), pfx, plen =>
    follow (ONode.mk dr c e) (pfx.set plen true) (plen + 1)
  | ONode.mk d ONode.nil ONode.nil, pfx, plen =>
    (ONode.mk d ONode.nil ONode.nil, pfx, plen)
  | ONode.nil, pfx, plen => (ONode.nil, pfx, plen)

/-- Well-formedness of a subtree rooted at depth `d`: leaves sit exactly at
depth `KeyBits`, internal nodes sit strictly above and have at least one
child. -/
inductive WF : Nat → ONode → Prop where
  | nil : ∀ d, WF d ONode.nil
  | leaf : ∀ dig, WF KeyBits (ONode.mk dig ONode.nil ONode.nil)
  | node : ∀ d dig l r, d < KeyBits → (l ≠ ONode.nil ∨ r ≠ ONode.nil) →
      WF (d + 1) l → WF (d + 1) r → WF d (ONode.mk dig l r)

/-- Every leaf reachable from this subtree (with the prefix extended along
the way) has an entry in `infos`. -/
inductive Covers (infos : List (List Bool × Nat)) :
    ONode → List Bool → Nat → Prop where
  | nil : ∀ pfx plen, Covers infos ONode.nil pfx plen
  | leaf : ∀ dig pfx plen v, mapLookup pfx infos = some v →
      Covers infos (ONode.mk dig ONode.nil ONode.nil) pfx plen
  | node : ∀ dig l r pfx plen, (l ≠ ONode.nil ∨ r ≠ ONode.nil) →
      Covers infos l (pfx.set plen false) (plen + 1) →
      Covers infos r (pfx.set plen true) (plen + 1) →
      Covers infos (ONode.mk dig l r) pfx plen

/-- A left-spine chain of single-child nodes ending in a leaf, used as a
concrete well-formed tree. -/
def chainTree : Nat → ONode
  | 0 => ONode.mk 0 ONode.nil ONode.nil
  | n + 1 => ONode.mk 0 (chainTree n) ONode.nil

end merkle

/-! ### Peer registry (`peers.addPeer`) -/

/-- The port-allocation loop in `peers.addPeer`: starting from 1 (skipping
0), take the first index not already in use.  The fuel (`|used| + 1`
candidates suffice by pigeonhole) models the unbounded Go loop. -/
def allocPortGo (used : List Nat) : Nat → Nat → Nat
  | 0, idx => idx
  | fuel + 1, idx => if idx ∈ used then allocPortGo used fuel (idx + 1) else idx

def allocPort (used : List Nat) : Nat :=
  allocPortGo used (used.length + 1) 1

/-- `peers.addPeer`: allocate the lowest free port (never 0) and register the
peer under it.  Only the port map is modelled; the other fields of the Go
peer are immaterial to the allocation. -/
def addPeer (m : List (Nat × publicKey)) (key : publicKey) :
    Nat × List (Nat × publicKey) :=
  let port := allocPort (keysOf m)
  (port, mapInsert port key m)

/-! ### Concrete instances used by witness and counterexample theorems -/

def dummySig : signature := ⟨[], []⟩

/-- A `routerInfo` with seq 1, nonce 0, dummy signatures. -/
def mkInfo (parent : publicKey) (port : Nat) : routerInfo :=
  ⟨⟨⟨1, 0⟩, port, dummySig⟩, parent, dummySig, false⟩

def baseConfig : Config := ⟨10, 100, 5⟩

def peerA : Peer := ⟨1, 10, 8⟩

def peerB : Peer := ⟨2, 5, 7⟩

/-- A router whose peer key `[1]` (distance 0) is closer than self (distance
1) and has two parallel links listed as `[peerB, peerA]`. -/
def rC7 : Router :=
  { selfKey := [0], config := baseConfig,
    infos := [([0], mkInfo [2] 1), ([2], mkInfo [2] 0), ([1], mkInfo [1] 0)],
    timers := [], cache := [], peers := [([1], [peerB, peerA])],
    refresh := false, nextTid := 0 }

def trC7 : Traffic := ⟨[], 5, [9]⟩

/-- An empty router (every destination is at distance `|path|`). -/
def rEmpty : Router :=
  { selfKey := [0], config := baseConfig, infos := [], timers := [],
    cache := [], peers := [], refresh := false, nextTid := 0 }

def trC2 : Traffic := ⟨[1, 2, 3, 4, 5], 5, [9]⟩

/-- A valid-shaped remote announcement for key `[1]` (self-parented root). -/
def annC6 : rAnnounce := ⟨⟨⟨1, 0⟩, 0, dummySig⟩, [1], [1], dummySig⟩

/-- An announcement violating `port==0 ⟹ key==parent`. -/
def annC9 : rAnnounce := ⟨⟨⟨1, 0⟩, 0, dummySig⟩, [1], [2], dummySig⟩

def rC6a : Router := (rEmpty.update annC6 0).2

def rC6b : Router := (rC6a.fireTimer [1] 0).1

def rC1 : Router :=
  { selfKey := [0], config := baseConfig, infos := [([1], mkInfo [1] 0)],
    timers := [], cache := [], peers := [], refresh := false, nextTid := 0 }

/-- At capacity (`maxInfos = 1`) holding only key `[5]`. -/
def rC3 : Router :=
  { selfKey := [0], config := ⟨10, 100, 1⟩, infos := [([5], mkInfo [5] 0)],
    timers := [([5], ⟨0, 10⟩)], cache := [], peers := [],
    refresh := false, nextTid := 1 }

def annC3 : rAnnounce := ⟨⟨⟨1, 0⟩, 0, dummySig⟩, [3], [3], dummySig⟩

def zeroBits : List Bool := List.replicate merkle.KeyBits false

def merk5 : merkle.ONode := merkle.chainTree merkle.KeyBits

def infos5 : List (List Bool × Nat) := [(zeroBits, 7)]

def req5 : merkle.MerkleReqB := ⟨0, zeroBits⟩

def reqW : wire.routerSigReq := ⟨3, 5⟩

def resW : wire.routerSigRes := ⟨⟨3, 5⟩, 2, List.replicate 64 1⟩

def annW : wire.routerAnnounce :=
  ⟨resW, List.replicate 32 2, List.replicate 32 3, List.replicate 64 4⟩

def mreqW : wire.routerMerkleReq := ⟨7, List.replicate 32 6⟩

def mresW : wire.routerMerkleRes := ⟨mreqW, List.replicate 32 9⟩

def mC10 : List (Nat × publicKey) := [(1, [9]), (2, [8])]

/-! ## Theorems -/

/-! ### Association-list map lemmas -/

section MapOpsLemmas

variable {α β : Type} [DecidableEq α]

theorem mapLookup_isSome_iff_mem {m : List (α × β)} {k : α} :
    (mapLookup k m).isSome ↔ k ∈ keysOf m := by
  induction m with
  | nil => simp [mapLookup, keysOf]
  | cons p rest ih =>
    by_cases h : p.1 = k
    · simp [mapLookup, keysOf, h]
    · simp only [mapLookup, keysOf, if_neg h, List.map_cons, List.mem_cons]
      rw [ih]
      simp [keysOf, Ne.symm h]

theorem mapLookup_eq_none_iff_not_mem {m : List (α × β)} {k : α} :
    mapLookup k m = none ↔ k ∉ keysOf m := by
  rw [← mapLookup_isSome_iff_mem, Option.isSome_iff_ne_none]
  tauto

theorem mapLookup_insert_self (k : α) (v : β) (m : List (α × β)) :
    mapLookup k (mapInsert k v m) = some v := by
  induction m with
  | nil => simp [mapInsert, mapLookup]
  | cons p rest ih =>
    by_cases h : p.1 = k
    · simp [mapInsert, mapLookup, h]
    · simp [mapInsert, mapLookup, h, ih]

theorem mapLookup_insert_ne {k k' : α} (v : β) (m : List (α × β)) (h : k' ≠ k) :
    mapLookup k' (mapInsert k v m) = mapLookup k' m := by
  induction m with
  | nil => simp [mapInsert, mapLookup, Ne.symm h]
  | cons p rest ih =>
    by_cases hp : p.1 = k
    · rw [show mapInsert k v (p :: rest) = (k, v) :: rest by
        simp [mapInsert, hp]]
      simp only [mapLookup, if_neg (Ne.symm h),
        if_neg (show p.1 ≠ k' by rw [hp]; exact Ne.symm h)]
    · rw [show mapInsert k v (p :: rest) = p :: mapInsert k v rest by
        simp [mapInsert, hp]]
      simp only [mapLookup, ih]

theorem mapLookup_insert_cases {k k' : α} {v w : β} {m : List (α × β)}
    (h : mapLookup k' (mapInsert k v m) = some w) :
    (k' = k ∧ w = v) ∨ (k' ≠ k ∧ mapLookup k' m = some w) := by
  by_cases hk : k' = k
  · subst hk
    rw [mapLookup_insert_self] at h
    exact Or.inl ⟨rfl, (Option.some.injEq _ _ ▸ h).symm⟩
  · rw [mapLookup_insert_ne v m hk] at h
    exact Or.inr ⟨hk, h⟩

theorem mapLookup_erase_ne {k k' : α} (m : List (α × β)) (h : k' ≠ k) :
    mapLookup k' (mapErase k m) = mapLookup k' m := by
  induction m with
  | nil => simp [mapErase]
  | cons p rest ih =>
    by_cases hp : p.1 = k
    · subst hp
      simp [mapErase, mapLookup, Ne.symm h]
    · simp [mapErase, mapLookup, hp, ih]

theorem mapLookup_erase_self {k : α} {m : List (α × β)} (h : nodupKeys m) :
    mapLookup k (mapErase k m) = none := by
  induction m with
  | nil => simp [mapErase, mapLookup]
  | cons p rest ih =>
    simp only [nodupKeys, keysOf, List.map_cons, List.nodup_cons] at h
    by_cases hp : p.1 = k
    · subst hp
      simp only [mapErase, if_pos rfl]
      rw [mapLookup_eq_none_iff_not_mem]
      exact h.1
    · simp only [mapErase, if_neg hp, mapLookup, if_neg hp]
      exact ih h.2

theorem mapLookup_erase_some {k k' : α} {v : β} {m : List (α × β)}
    (hnd : nodupKeys m) (h : mapLookup k' (mapErase k m) = some v) :
    mapLookup k' m = some v := by
  by_cases hk : k' = k
  · subst hk
    rw [mapLookup_erase_self hnd] at h
    exact absurd h (by simp)
  · rwa [mapLookup_erase_ne m hk] at h

theorem length_mapInsert (k : α) (v : β) (m : List (α × β)) :
    (mapInsert k v m).length =
      if (mapLookup k m).isSome then m.length else m.length + 1 := by
  induction m with
  | nil => simp [mapInsert, mapLookup]
  | cons p rest ih =>
    by_cases h : p.1 = k
    · simp [mapInsert, mapLookup, h]
    · simp only [mapInsert, if_neg h, mapLookup, List.length_cons, ih]
      split <;> simp

theorem length_mapErase_some {k : α} {m : List (α × β)}
    (h : (mapLookup k m).isSome) :
    (mapErase k m).length + 1 = m.length := by
  induction m with
  | nil => simp [mapLookup] at h
  | cons p rest ih =>
    by_cases hp : p.1 = k
    · simp [mapErase, hp]
    · simp only [mapLookup, if_neg hp] at h
      simp [mapErase, hp, ih h]

theorem mem_keysOf_mapInsert {x k : α} {v : β} {m : List (α × β)} :
    x ∈ keysOf (mapInsert k v m) ↔ x = k ∨ x ∈ keysOf m := by
  induction m with
  | nil => simp [mapInsert, keysOf]
  | cons p rest ih =>
    by_cases hp : p.1 = k
    · rw [show mapInsert k v (p :: rest) = (k, v) :: rest by
        simp [mapInsert, hp]]
      simp only [keysOf, List.map_cons, List.mem_cons, hp]
      tauto
    · rw [show mapInsert k v (p :: rest) = p :: mapInsert k v rest by
        simp [mapInsert, hp]]
      simp only [keysOf, List.map_cons, List.mem_cons] at ih ⊢
      rw [ih]
      tauto

theorem nodupKeys_mapInsert (k : α) (v : β) {m : List (α × β)}
    (h : nodupKeys m) : nodupKeys (mapInsert k v m) := by
  induction m with
  | nil => simp [mapInsert, nodupKeys, keysOf]
  | cons p rest ih =>
    simp only [nodupKeys, keysOf, List.map_cons, List.nodup_cons] at h
    by_cases hp : p.1 = k
    · rw [show mapInsert k v (p :: rest) = (k, v) :: rest by
        simp [mapInsert, hp]]
      simp only [nodupKeys, keysOf, List.map_cons, List.nodup_cons]
      exact ⟨hp ▸ h.1, h.2⟩
    · rw [show mapInsert k v (p :: rest) = p :: mapInsert k v rest by
        simp [mapInsert, hp]]
      simp only [nodupKeys, keysOf, List.map_cons, List.nodup_cons]
      refine ⟨?_, ih h.2⟩
      intro hmem
      rcases mem_keysOf_mapInsert.mp hmem with h1 | h2
      · exact hp h1
      · exact h.1 h2

theorem nodupKeys_mapErase (k : α) {m : List (α × β)}
    (h : nodupKeys m) : nodupKeys (mapErase k m) := by
  induction m with
  | nil => simpa [mapErase] using h
  | cons p rest ih =>
    simp only [nodupKeys, keysOf, List.map_cons, List.nodup_cons] at h
    by_cases hp : p.1 = k
    · simpa [mapErase, hp, nodupKeys] using h.2
    · have hrec := ih h.2
      simp only [mapErase, if_neg hp, nodupKeys, keysOf, List.map_cons,
        List.nodup_cons]
      refine ⟨?_, hrec⟩
      intro hmem
      apply h.1
      have hsub : keysOf (mapErase k rest) ⊆ keysOf rest := by
        clear hmem hrec h ih
        induction rest with
        | nil => simp [mapErase]
        | cons q qs ihq =>
          by_cases hq : q.1 = k
          · simp only [mapErase, if_pos hq, keysOf, List.map_cons]
            exact fun x hx => List.mem_cons_of_mem _ hx
          · simp only [mapErase, if_neg hq, keysOf, List.map_cons]
            intro x hx
            rcases List.mem_cons.mp hx with h1 | h2
            · exact List.mem_cons.mpr (Or.inl h1)
            · exact List.mem_cons.mpr (Or.inr (ihq h2))
      exact hsub hmem

end MapOpsLemmas

/-! ### Key order lemmas -/

theorem keyLess_irrefl (a : publicKey) : keyLess a a = false := by
  induction a with
  | nil => rfl
  | cons x xs ih => simp [keyLess, ih]

theorem keyLess_asymm {a b : publicKey} (h : keyLess a b = true) :
    keyLess b a = false := by
  induction a generalizing b with
  | nil => cases b <;> simp [keyLess] at h
  | cons x xs ih =>
    cases b with
    | nil => simp [keyLess] at h
    | cons y ys =>
      simp only [keyLess] at h ⊢
      rcases Nat.lt_trichotomy x y with hlt | heq | hgt
      · simp [hlt, Nat.lt_asymm hlt, Nat.ne_of_lt hlt]
      · subst heq
        simp only [lt_irrefl, if_false, ite_self] at h ⊢
        exact ih h
      · simp [hgt, Nat.lt_asymm hgt] at h

theorem keyLess_trans {a b c : publicKey}
    (h1 : keyLess a b = true) (h2 : keyLess b c = true) :
    keyLess a c = true := by
  induction a generalizing b c with
  | nil => cases b <;> simp [keyLess] at h1
  | cons x xs ih =>
    cases b with
    | nil => simp [keyLess] at h1
    | cons y ys =>
      cases c with
      | nil => simp [keyLess] at h2
      | cons z zs =>
        simp only [keyLess] at h1 h2 ⊢
        rcases Nat.lt_trichotomy x y with hxy | hxy | hxy
        · rcases Nat.lt_trichotomy y z with hyz | hyz | hyz
          · simp [Nat.lt_trans hxy hyz]
          · subst hyz; simp [hxy]
          · simp [hyz, Nat.lt_asymm hyz] at h2
        · subst hxy
          rcases Nat.lt_trichotomy x z with hyz | hyz | hyz
          · simp [hyz]
          · subst hyz
            simp only [lt_irrefl, if_false, ite_self] at h1 h2 ⊢
            exact ih h1 h2
          · simp [hyz, Nat.lt_asymm hyz] at h2
        · simp [hxy, Nat.lt_asymm hxy] at h1

/-- No key is lexicographically below an all-zero byte string (the Go
zero-value `publicKey`). -/
theorem keyLess_zero (a : publicKey) (n : Nat) :
    keyLess a (List.replicate n 0) = false := by
  induction a generalizing n with
  | nil => cases n <;> rfl
  | cons x xs ih =>
    cases n with
    | zero => rfl
    | succ m =>
      simp only [List.replicate, keyLess]
      cases x with
      | zero => simpa using ih m
      | succ k => simp

/-! ### Wire encoding lemmas -/

namespace wire

theorem chopUintGo_encGroups (m : Nat) :
    ∀ acc rest, ∃ P, 0 < P ∧
      chopUintGo acc (encGroups m ++ rest) = chopUintGo (acc * P + m) rest := by
  by_cases h : m = 0
  · subst h
    intro acc rest
    refine ⟨1, Nat.one_pos, ?_⟩
    rw [encGroups]
    simp
  · intro acc rest
    obtain ⟨P1, hP1, hrec⟩ :=
      chopUintGo_encGroups (m / 128) acc ([m % 128 + 128] ++ rest)
    refine ⟨P1 * 128, by positivity, ?_⟩
    rw [encGroups, dif_neg h, List.append_assoc, hrec]
    have hge : ¬ (m % 128 + 128 < 128) := by omega
    simp only [List.cons_append, List.nil_append, chopUintGo, if_neg hge]
    have hmod : 128 * (m / 128) + m % 128 = m := Nat.div_add_mod m 128
    have h1 : m % 128 + 128 - 128 = m % 128 := by omega
    have harg : (acc * P1 + m / 128) * 128 + (m % 128 + 128 - 128)
        = acc * (P1 * 128) + m := by
      have hq : (acc * P1 + m / 128) * 128 + (m % 128 + 128 - 128)
          = acc * (P1 * 128) + (128 * (m / 128) + m % 128) := by
        rw [h1]; ring
      rw [hq, hmod]
    rw [harg]
    rfl
termination_by m
decreasing_by exact Nat.div_lt_self (Nat.pos_of_ne_zero h) (by decide)

theorem wireChopUint_encUint (n : Nat) (rest : List Nat) :
    wireChopUint (encUint n ++ rest) = some (n, rest) := by
  obtain ⟨P, hP, hrec⟩ := chopUintGo_encGroups (n / 128) 0 ([n % 128] ++ rest)
  rw [wireChopUint, encUint, List.append_assoc, hrec]
  have hlt : n % 128 < 128 := Nat.mod_lt _ (by decide)
  simp only [List.cons_append, List.nil_append, chopUintGo, if_pos hlt,
    Nat.zero_mul, Nat.zero_add]
  have harg : n / 128 * 128 + n % 128 = n := by omega
  rw [harg]
  rfl

theorem wireChopSlice_append {k : Nat} {l : List Nat} (rest : List Nat)
    (h : l.length = k) :
    wireChopSlice k (l ++ rest) = some (l, rest) := by
  subst h
  rw [wireChopSlice, if_pos (by simp)]
  simp

theorem sigReq_encode_eq (req : routerSigReq) (out : List Nat) :
    req.encode out = out ++ req.encode [] := by
  simp [routerSigReq.encode, wireAppendUint]

theorem sigReq_chop_encode (req : routerSigReq) (rest : List Nat) :
    routerSigReq.chop (req.encode [] ++ rest) = some (req, rest) := by
  obtain ⟨s, n⟩ := req
  simp only [routerSigReq.encode, wireAppendUint, List.nil_append,
    List.append_assoc, routerSigReq.chop, wireChopUint_encUint]

theorem sigRes_encode_eq (res : routerSigRes) (out : List Nat) :
    res.encode out = out ++ res.encode [] := by
  simp [routerSigRes.encode, wireAppendUint, routerSigReq.encode]

theorem sigRes_chop_encode (res : routerSigRes) (rest : List Nat)
    (h : res.psig.length = signatureSize) :
    routerSigRes.chop (res.encode [] ++ rest) = some (res, rest) := by
  obtain ⟨req, port, psig⟩ := res
  simp only [routerSigRes.encode, wireAppendUint, List.append_assoc]
  simp only [routerSigRes.chop, sigReq_chop_encode, wireChopUint_encUint,
    wireChopSlice_append _ h]

theorem merkleReq_encode_eq (req : routerMerkleReq) (out : List Nat) :
    req.encode out = out ++ req.encode [] := by
  simp [routerMerkleReq.encode, wireAppendUint]

theorem merkleReq_chop_encode (req : routerMerkleReq) (rest : List Nat)
    (h : req.pfx.length = publicKeySize) :
    routerMerkleReq.chop (req.encode [] ++ rest) = some (req, rest) := by
  obtain ⟨plen, pfx⟩ := req
  simp only [routerMerkleReq.encode, wireAppendUint, List.nil_append,
    List.append_assoc]
  simp only [routerMerkleReq.chop, wireChopUint_encUint,
    wireChopSlice_append _ h]

theorem merkleRes_chop_encode (res : routerMerkleRes) (rest : List Nat)
    (hp : res.pfx.length = publicKeySize)
    (hd : res.digest.length = digestSize) :
    routerMerkleRes.chop (res.encode [] ++ rest) = some (res, rest) := by
  obtain ⟨req, digest⟩ := res
  simp only [routerMerkleRes.encode, List.append_assoc]
  rw [merkleReq_encode_eq]
  simp only [List.nil_append, List.append_assoc]
  simp only [routerMerkleRes.chop, merkleReq_chop_encode _ _ hp,
    wireChopSlice_append _ hd]

end wire

/-! ### Wire decode round-trips (claim C8) -/

namespace wire

theorem sigReq_decode_encode (req : routerSigReq) :
    routerSigReq.decode (req.encode []) = some req := by
  have h := sigReq_chop_encode req []
  rw [List.append_nil] at h
  simp [routerSigReq.decode, h]

theorem sigReq_decode_trailing (req : routerSigReq) (e : List Nat)
    (he : e ≠ []) :
    routerSigReq.decode (req.encode [] ++ e) = none := by
  have h := sigReq_chop_encode req e
  cases e with
  | nil => exact absurd rfl he
  | cons b bs => simp [routerSigReq.decode, h]

theorem sigRes_decode_encode (res : routerSigRes)
    (hs : res.psig.length = signatureSize) :
    routerSigRes.decode (res.encode []) = some res := by
  have h := sigRes_chop_encode res [] hs
  rw [List.append_nil] at h
  simp [routerSigRes.decode, h]

theorem sigRes_decode_trailing (res : routerSigRes) (e : List Nat)
    (hs : res.psig.length = signatureSize) (he : e ≠ []) :
    routerSigRes.decode (res.encode [] ++ e) = none := by
  have h := sigRes_chop_encode res e hs
  cases e with
  | nil => exact absurd rfl he
  | cons b bs => simp [routerSigRes.decode, h]

theorem announce_encode_split (ann : routerAnnounce) :
    ann.encode [] = ann.key ++ (ann.parent
      ++ (ann.torouterSigRes.encode [] ++ ann.sig)) := by
  rw [routerAnnounce.encode, sigRes_encode_eq]
  simp [List.append_assoc]

theorem announce_decode_encode (ann : routerAnnounce)
    (hk : ann.key.length = publicKeySize)
    (hp : ann.parent.length = publicKeySize)
    (hs : ann.psig.length = signatureSize)
    (hg : ann.sig.length = signatureSize) :
    routerAnnounce.decode (ann.encode []) = some ann := by
  obtain ⟨res, key, parent, sig⟩ := ann
  rw [announce_encode_split]
  have hsig : wireChopSlice signatureSize sig = some (sig, []) := by
    have := @wireChopSlice_append signatureSize sig [] hg
    rwa [List.append_nil] at this
  simp only [routerAnnounce.decode, wireChopSlice_append _ hk,
    wireChopSlice_append _ hp, sigRes_chop_encode _ _ hs, hsig]

theorem announce_decode_trailing (ann : routerAnnounce) (e : List Nat)
    (hk : ann.key.length = publicKeySize)
    (hp : ann.parent.length = publicKeySize)
    (hs : ann.psig.length = signatureSize)
    (hg : ann.sig.length = signatureSize) (he : e ≠ []) :
    routerAnnounce.decode (ann.encode [] ++ e) = none := by
  obtain ⟨res, key, parent, sig⟩ := ann
  rw [announce_encode_split]
  cases e with
  | nil => exact absurd rfl he
  | cons b bs =>
    simp only [List.append_assoc]
    simp only [routerAnnounce.decode, wireChopSlice_append _ hk,
      wireChopSlice_append _ hp, sigRes_chop_encode _ _ hs,
      wireChopSlice_append _ hg]

theorem merkleReq_decode_encode (req : routerMerkleReq)
    (h : req.pfx.length = publicKeySize) :
    routerMerkleReq.decode (req.encode []) = some req := by
  have hc := merkleReq_chop_encode req [] h
  rw [List.append_nil] at hc
  simp [routerMerkleReq.decode, hc]

theorem merkleReq_decode_trailing (req : routerMerkleReq) (e : List Nat)
    (h : req.pfx.length = publicKeySize) (he : e ≠ []) :
    routerMerkleReq.decode (req.encode [] ++ e) = none := by
  have hc := merkleReq_chop_encode req e h
  cases e with
  | nil => exact absurd rfl he
  | cons b bs => simp [routerMerkleReq.decode, hc]

theorem merkleRes_decode_encode (res : routerMerkleRes)
    (hp : res.pfx.length = publicKeySize)
    (hd : res.digest.length = digestSize) :
    routerMerkleRes.decode (res.encode []) = some res := by
  have hc := merkleRes_chop_encode res [] hp hd
  rw [List.append_nil] at hc
  simp [routerMerkleRes.decode, hc]

theorem merkleRes_decode_trailing (res : routerMerkleRes) (e : List Nat)
    (hp : res.pfx.length = publicKeySize)
    (hd : res.digest.length = digestSize) (he : e ≠ []) :
    routerMerkleRes.decode (res.encode [] ++ e) = none := by
  have hc := merkleRes_chop_encode res e hp hd
  cases e with
  | nil => exact absurd rfl he
  | cons b bs => simp [routerMerkleRes.decode, hc]

end wire

/-- Claim C8: for each router message type, decoding the encoding yields the
original value, and decoding rejects any trailing bytes. -/
theorem claim_C8
    (req : wire.routerSigReq) (res : wire.routerSigRes)
    (ann : wire.routerAnnounce) (mreq : wire.routerMerkleReq)
    (mres : wire.routerMerkleRes) (e : List Nat)
    (hres : res.psig.length = wire.signatureSize)
    (hak : ann.key.length = wire.publicKeySize)
    (hap : ann.parent.length = wire.publicKeySize)
    (hasg : ann.psig.length = wire.signatureSize)
    (hag : ann.sig.length = wire.signatureSize)
    (hmq : mreq.pfx.length = wire.publicKeySize)
    (hrq : mres.pfx.length = wire.publicKeySize)
    (hrd : mres.digest.length = wire.digestSize)
    (he : e ≠ []) :
    (wire.routerSigReq.decode (req.encode []) = some req
      ∧ wire.routerSigReq.decode (req.encode [] ++ e) = none)
    ∧ (wire.routerSigRes.decode (res.encode []) = some res
      ∧ wire.routerSigRes.decode (res.encode [] ++ e) = none)
    ∧ (wire.routerAnnounce.decode (ann.encode []) = some ann
      ∧ wire.routerAnnounce.decode (ann.encode [] ++ e) = none)
    ∧ (wire.routerMerkleReq.decode (mreq.encode []) = some mreq
      ∧ wire.routerMerkleReq.decode (mreq.encode [] ++ e) = none)
    ∧ (wire.routerMerkleRes.decode (mres.encode []) = some mres
      ∧ wire.routerMerkleRes.decode (mres.encode [] ++ e) = none) :=
  ⟨⟨wire.sigReq_decode_encode req,
    wire.sigReq_decode_trailing req e he⟩,
  ⟨wire.sigRes_decode_encode res hres,
    wire.sigRes_decode_trailing res e hres he⟩,
  ⟨wire.announce_decode_encode ann hak hap hasg hag,
    wire.announce_decode_trailing ann e hak hap hasg hag he⟩,
  ⟨wire.merkleReq_decode_encode mreq hmq,
    wire.merkleReq_decode_trailing mreq e hmq he⟩,
  ⟨wire.merkleRes_decode_encode mres hrq hrd,
    wire.merkleRes_decode_trailing mres e hrq hrd he⟩⟩

/-! ### `_update` and the CRDT order (claims C1, C9) -/

theorem update_fst_eq_updateAccepts (r : Router) (ann : rAnnounce) (j : Nat)
    (info : routerInfo) (h : mapLookup ann.key r.infos = some info) :
    (r.update ann j).1 = updateAccepts info ann := by
  by_cases hacc : updateAccepts info ann <;> simp [Router.update, h, hacc]

theorem update_true_state (r : Router) (ann : rAnnounce) (j : Nat)
    (h : (r.update ann j).1 = true) :
    (r.update ann j).2 = acceptUpdate r ann j := by
  cases hl : mapLookup ann.key r.infos with
  | none => simp [Router.update, hl]
  | some info =>
    by_cases hacc : updateAccepts info ann
    · simp [Router.update, hl, hacc]
    · simp [Router.update, hl, hacc] at h

theorem updateAccepts_iff (info : routerInfo) (ann : rAnnounce) :
    updateAccepts info ann = true ↔
      (info.seq < ann.seq
        ∨ (info.seq = ann.seq ∧ keyLess ann.parent info.parent = true)
        ∨ (info.seq = ann.seq ∧ keyLess ann.parent info.parent = false
            ∧ keyLess info.parent ann.parent = false
            ∧ ann.nonce < info.nonce)) := by
  unfold updateAccepts
  split_ifs with h1 h2 h3 h4 h5
  · simp only [Bool.false_eq_true, false_iff]
    rintro (h | ⟨he, _⟩ | ⟨he, _⟩) <;> omega
  · simp only [true_iff]
    exact Or.inl h2
  · simp only [Bool.false_eq_true, false_iff]
    rintro (h | ⟨_, hno⟩ | ⟨_, _, hip, _⟩)
    · omega
    · rw [keyLess_asymm hno] at h3
      exact absurd h3 (by decide)
    · rw [h3] at hip
      exact absurd hip (by decide)
  · simp only [true_iff]
    exact Or.inr (Or.inl ⟨by omega, h4⟩)
  · simp only [true_iff]
    exact Or.inr (Or.inr ⟨by omega, by simpa using h4, by simpa using h3, h5⟩)
  · simp only [Bool.false_eq_true, false_iff]
    rintro (h | ⟨_, hyes⟩ | ⟨_, _, _, hn⟩)
    · omega
    · exact h4 hyes
    · omega

theorem handleAnnounce_sends_nothing (r : Router) (ann : rAnnounce) (j : Nat) :
    (r.handleAnnounce ann j).2.2 = [] := by
  simp only [Router.handleAnnounce]
  split_ifs <;> rfl

/-- Claim C1 main content: with a stored info for the key, `_update` accepts
exactly according to the ordered rule table. -/
theorem claim_C1 (r : Router) (ann : rAnnounce) (j : Nat) (info : routerInfo)
    (h : mapLookup ann.key r.infos = some info) :
    ((r.update ann j).1 = true ↔
      (info.seq < ann.seq
        ∨ (info.seq = ann.seq ∧ keyLess ann.parent info.parent = true)
        ∨ (info.seq = ann.seq ∧ keyLess ann.parent info.parent = false
            ∧ keyLess info.parent ann.parent = false
            ∧ ann.nonce < info.nonce)))
    ∧ (info.seq = ann.seq → info.parent = ann.parent → info.nonce = ann.nonce →
        (r.update ann j).1 = false ∧ (r.handleAnnounce ann j).2.2 = []) := by
  have hfst := update_fst_eq_updateAccepts r ann j info h
  constructor
  · rw [hfst]
    exact updateAccepts_iff info ann
  · intro hs hp hn
    refine ⟨?_, handleAnnounce_sends_nothing r ann j⟩
    rw [hfst]
    simp [updateAccepts, hs, hp, hn, keyLess_irrefl]

/-- Claim C9: with no stored info for the key, `_update` accepts
unconditionally (no CRDT comparison, no validation) and stores the info and
a fresh timer. -/
theorem claim_C9 (r : Router) (ann : rAnnounce) (j : Nat)
    (h : mapLookup ann.key r.infos = none) :
    (r.update ann j).1 = true
    ∧ (r.update ann j).2 = acceptUpdate r ann j
    ∧ mapLookup ann.key (r.update ann j).2.infos = some (annInfo ann)
    ∧ mapLookup ann.key (r.update ann j).2.timers
        = some ⟨r.nextTid, updateDelay r ann.key j⟩ := by
  simp [Router.update, h, acceptUpdate, mapLookup_insert_self]

/-! ### `_lookup` and the watermark (claim C2) -/

theorem lookup_none_of_ge (r : Router) (tr : Traffic)
    (h : tr.watermark ≤ (r.getDist tr.path r.selfKey).1) :
    (r.lookup tr).2.1 = none := by
  have hnot : ¬ (r.getDist tr.path r.selfKey).1 < tr.watermark := by omega
  simp [Router.lookup, hnot]

theorem lookup_some_watermark (r : Router) (tr : Traffic) (p : Peer)
    (h : (r.lookup tr).2.1 = some p) :
    (r.lookup tr).2.2.watermark = (r.getDist tr.path r.selfKey).1
    ∧ (r.lookup tr).2.2.watermark < tr.watermark := by
  by_cases hlt : (r.getDist tr.path r.selfKey).1 < tr.watermark
  · refine ⟨?_, ?_⟩
    · simp [Router.lookup, hlt]
    · simp only [Router.lookup]
      simp [hlt]
  · exfalso
    simp [Router.lookup, hlt] at h

theorem hopCount_le (rs : List Router) :
    ∀ tr : Traffic, hopCount rs tr ≤ tr.watermark := by
  induction rs with
  | nil => intro tr; simp [hopCount]
  | cons r rs ih =>
    intro tr
    cases h : (r.lookup tr).2.1 with
    | none => simp [hopCount, h]
    | some p =>
      have hw := lookup_some_watermark r tr p h
      have hle := ih ((r.lookup tr).2.2)
      simp only [hopCount, h]
      omega

/-- Claim C2: `_lookup` drops when the self distance is not strictly below
the watermark; a successful lookup lowers the watermark to the self
distance; hence any forwarding trajectory has at most `watermark` hops. -/
theorem claim_C2 :
    (∀ (r : Router) (tr : Traffic),
        tr.watermark ≤ (r.getDist tr.path r.selfKey).1 →
        (r.lookup tr).2.1 = none)
    ∧ (∀ (r : Router) (tr : Traffic) (p : Peer),
        (r.lookup tr).2.1 = some p →
        (r.lookup tr).2.2.watermark = (r.getDist tr.path r.selfKey).1
        ∧ (r.lookup tr).2.2.watermark < tr.watermark)
    ∧ (∀ (rs : List Router) (tr : Traffic), hopCount rs tr ≤ tr.watermark) :=
  ⟨lookup_none_of_ge, lookup_some_watermark, fun rs => hopCount_le rs⟩

/-! ### `_handleAnnounce` capacity logic (claim C3) -/

theorem update_none_accepts (r : Router) (ann : rAnnounce) (j : Nat)
    (h : mapLookup ann.key r.infos = none) :
    r.update ann j = (true, acceptUpdate r ann j) := by
  simp [Router.update, h]

theorem update_infos_length_some (r : Router) (ann : rAnnounce) (j : Nat)
    (h : (mapLookup ann.key r.infos).isSome) :
    (r.update ann j).2.infos.length = r.infos.length := by
  rcases Option.isSome_iff_exists.mp h with ⟨info, hinfo⟩
  by_cases hacc : updateAccepts info ann
  · simp [Router.update, hinfo, hacc, acceptUpdate, length_mapInsert, h]
  · simp [Router.update, hinfo, hacc]

theorem update_infos_length_none (r : Router) (ann : rAnnounce) (j : Nat)
    (h : mapLookup ann.key r.infos = none) :
    (r.update ann j).2.infos.length = r.infos.length + 1 := by
  simp [Router.update, h, acceptUpdate, length_mapInsert]

theorem worstFoldGo_mono (self : publicKey) (ks : List publicKey) :
    ∀ acc : Bool × publicKey, acc.1 = true →
      (ks.foldl (worstStep self) acc).1 = true
      ∧ ((ks.foldl (worstStep self) acc).2 = acc.2
        ∨ keyLess acc.2 (ks.foldl (worstStep self) acc).2 = true) := by
  induction ks with
  | nil =>
    intro acc h
    exact ⟨h, Or.inl rfl⟩
  | cons k ks ih =>
    intro acc h
    rw [List.foldl_cons]
    by_cases hk : k = self
    · rw [show worstStep self acc k = acc by simp [worstStep, hk]]
      exact ih acc h
    · by_cases hc : (!acc.1 || keyLess acc.2 k) = true
      · have hstep : worstStep self acc k = (true, k) := by
          simp [worstStep, hk, hc]
        rw [hstep]
        have hlt : keyLess acc.2 k = true := by
          simp [h] at hc
          exact hc
        obtain ⟨h1, h2⟩ := ih (true, k) rfl
        refine ⟨h1, Or.inr ?_⟩
        rcases h2 with he | hl2
        · rw [he]
          exact hlt
        · exact keyLess_trans hlt hl2
      · have hstep : worstStep self acc k = acc := by
          simp only [worstStep, if_neg hk, if_neg hc]
        rw [hstep]
        exact ih acc h

theorem worstFoldGo_max (self : publicKey) (ks : List publicKey) :
    ∀ (acc : Bool × publicKey) (k : publicKey), k ∈ ks → k ≠ self →
      keyLess (ks.foldl (worstStep self) acc).2 k = false := by
  induction ks with
  | nil =>
    intro acc k hk
    simp at hk
  | cons q qs ih =>
    intro acc k hk hne
    rw [List.foldl_cons]
    rcases List.mem_cons.mp hk with rfl | hks
    · by_cases hc : (!acc.1 || keyLess acc.2 k) = true
      · have hstep : worstStep self acc k = (true, k) := by
          simp [worstStep, hne, hc]
        rw [hstep]
        obtain ⟨_, h2⟩ := worstFoldGo_mono self qs (true, k) rfl
        rcases h2 with he | hl
        · rw [he]
          exact keyLess_irrefl k
        · exact keyLess_asymm hl
      · have hstep : worstStep self acc k = acc := by
          simp only [worstStep, if_neg hne, if_neg hc]
        rw [hstep]
        simp only [Bool.or_eq_true, Bool.not_eq_true', not_or] at hc
        obtain ⟨hacc1, hlk⟩ := hc
        have hacc1' : acc.1 = true := by
          cases hb : acc.1
          · exact absurd hb hacc1
          · rfl
        have hlk' : keyLess acc.2 k = false := by
          cases hb : keyLess acc.2 k
          · rfl
          · exact absurd hb hlk
        obtain ⟨_, h2⟩ := worstFoldGo_mono self qs acc hacc1'
        rcases h2 with he | hl
        · rw [he]
          exact hlk'
        · by_contra hcon
          rw [Bool.not_eq_false] at hcon
          have htr := keyLess_trans hl hcon
          rw [htr] at hlk'
          exact absurd hlk' (by decide)
    · exact ih (worstStep self acc q) k hks hne

theorem worstFoldGo_mem (self : publicKey) (ks : List publicKey) :
    ∀ acc : Bool × publicKey, (acc.1 = true → acc.2 ≠ self) →
      (ks.foldl (worstStep self) acc).1 = true →
      ((ks.foldl (worstStep self) acc).2 ∈ ks
        ∧ (ks.foldl (worstStep self) acc).2 ≠ self)
      ∨ (acc.1 = true ∧ (ks.foldl (worstStep self) acc).2 = acc.2) := by
  induction ks with
  | nil =>
    intro acc hself h
    exact Or.inr ⟨h, rfl⟩
  | cons q qs ih =>
    intro acc hself h
    rw [List.foldl_cons] at h ⊢
    by_cases hk : q = self
    · have hstep : worstStep self acc q = acc := by simp [worstStep, hk]
      rw [hstep] at h ⊢
      rcases ih acc hself h with ⟨h1, h2⟩ | h3
      · exact Or.inl ⟨List.mem_cons_of_mem _ h1, h2⟩
      · exact Or.inr h3
    · by_cases hc : (!acc.1 || keyLess acc.2 q) = true
      · have hstep : worstStep self acc q = (true, q) := by
          simp [worstStep, hk, hc]
        rw [hstep] at h ⊢
        have hself2 : ((true, q) : Bool × publicKey).1 = true →
            ((true, q) : Bool × publicKey).2 ≠ self := fun _ => hk
        rcases ih (true, q) hself2 h with ⟨h1, h2⟩ | ⟨_, h3⟩
        · exact Or.inl ⟨List.mem_cons_of_mem _ h1, h2⟩
        · exact Or.inl ⟨h3 ▸ List.mem_cons_self q qs, h3 ▸ hk⟩
      · have hstep : worstStep self acc q = acc := by
          simp only [worstStep, if_neg hk, if_neg hc]
        rw [hstep] at h ⊢
        rcases ih acc hself h with ⟨h1, h2⟩ | h3
        · exact Or.inl ⟨List.mem_cons_of_mem _ h1, h2⟩
        · exact Or.inr h3

theorem worstFoldGo_notfound (self : publicKey) (ks : List publicKey) :
    ∀ acc : Bool × publicKey, (ks.foldl (worstStep self) acc).1 = false →
      (ks.foldl (worstStep self) acc).2 = acc.2 ∧ acc.1 = false
      ∧ ∀ k ∈ ks, k = self := by
  induction ks with
  | nil =>
    intro acc h
    exact ⟨rfl, h, by simp⟩
  | cons q qs ih =>
    intro acc h
    rw [List.foldl_cons] at h ⊢
    by_cases hk : q = self
    · have hstep : worstStep self acc q = acc := by simp [worstStep, hk]
      rw [hstep] at h ⊢
      obtain ⟨h1, h2, h3⟩ := ih acc h
      refine ⟨h1, h2, ?_⟩
      intro k hkk
      rcases List.mem_cons.mp hkk with rfl | hmem
      · exact hk
      · exact h3 k hmem
    · by_cases hc : (!acc.1 || keyLess acc.2 q) = true
      · have hstep : worstStep self acc q = (true, q) := by
          simp [worstStep, hk, hc]
        rw [hstep] at h
        obtain ⟨_, h2, _⟩ := ih (true, q) h
        simp at h2
      · have hstep : worstStep self acc q = acc := by
          simp only [worstStep, if_neg hk, if_neg hc]
        rw [hstep] at h ⊢
        obtain ⟨h1, h2, h3⟩ := ih acc h
        simp only [Bool.or_eq_true, Bool.not_eq_true', not_or] at hc
        rw [h2] at hc
        exact absurd rfl hc.1

theorem worstFold_spec (ks : List publicKey) (self : publicKey) :
    ((worstFold ks self).1 = true →
      ((worstFold ks self).2 ∈ ks ∧ (worstFold ks self).2 ≠ self
        ∧ ∀ k ∈ ks, k ≠ self → keyLess (worstFold ks self).2 k = false))
    ∧ ((worstFold ks self).1 = false →
      ((worstFold ks self).2 = zeroKey ∧ ∀ k ∈ ks, k = self)) := by
  constructor
  · intro h
    rcases worstFoldGo_mem self ks (false, zeroKey) (by simp) h with
      ⟨h1, h2⟩ | ⟨hfalse, _⟩
    · exact ⟨h1, h2, fun k hk hne => worstFoldGo_max self ks _ k hk hne⟩
    · exact absurd hfalse (by decide)
  · intro h
    obtain ⟨h1, _, h3⟩ := worstFoldGo_notfound self ks (false, zeroKey) h
    exact ⟨h1, h3⟩

theorem handleAnnounce_reject_gate (r : Router) (ann : rAnnounce) (j : Nat)
    (hg1 : (handleAnnounceGate r ann).1 = false) :
    r.handleAnnounce ann j = (r, false, []) := by
  simp [Router.handleAnnounce, hg1]

theorem handleAnnounce_reject_update (r : Router) (ann : rAnnounce) (j : Nat)
    (hu : (r.update ann j).1 = false) :
    r.handleAnnounce ann j = (r, false, []) := by
  simp [Router.handleAnnounce, hu]

theorem handleAnnounce_state (r : Router) (ann : rAnnounce) (j : Nat)
    (hg1 : (handleAnnounceGate r ann).1 = true)
    (hu : (r.update ann j).1 = true) :
    (r.handleAnnounce ann j).1.infos
      = (if (handleAnnounceGate r ann).2.1 then
          mapErase (handleAnnounceGate r ann).2.2 (r.update ann j).2.infos
        else (r.update ann j).2.infos)
    ∧ (r.handleAnnounce ann j).1.timers
      = (if (handleAnnounceGate r ann).2.1 then
          mapErase (handleAnnounceGate r ann).2.2 (r.update ann j).2.timers
        else (r.update ann j).2.timers)
    ∧ (r.handleAnnounce ann j).2.1 = true := by
  simp only [Router.handleAnnounce, hg1, hu, if_true]
  refine ⟨?_, ?_, ?_⟩
  · split_ifs <;> rfl
  · split_ifs <;> rfl
  · trivial

/-- Claim C3: `_handleAnnounce` preserves `|infos| ≤ max_infos`; at capacity
a fresh key is stored only when strictly below the worst non-self key, in
which case that worst entry and its timer are evicted; and the fold's worst
key is indeed the highest-keyed non-self entry. -/
theorem claim_C3 (r : Router) (ann : rAnnounce) (j : Nat)
    (hnd : nodupKeys r.infos) (hndT : nodupKeys r.timers)
    (hle : r.infos.length ≤ r.config.maxInfos) :
    ((r.handleAnnounce ann j).1.infos.length ≤ r.config.maxInfos)
    ∧ (r.config.maxInfos ≤ r.infos.length → mapLookup ann.key r.infos = none →
        (∀ w, worstFold (keysOf r.infos) r.selfKey = (true, w) →
          (keyLess ann.key w = false → r.handleAnnounce ann j = (r, false, []))
          ∧ (keyLess ann.key w = true →
              mapLookup ann.key (r.handleAnnounce ann j).1.infos
                = some (annInfo ann)
              ∧ mapLookup w (r.handleAnnounce ann j).1.infos = none
              ∧ mapLookup w (r.handleAnnounce ann j).1.timers = none))
        ∧ ((worstFold (keysOf r.infos) r.selfKey).1 = false →
            r.handleAnnounce ann j = (r, false, [])))
    ∧ (∀ w, worstFold (keysOf r.infos) r.selfKey = (true, w) →
        w ∈ keysOf r.infos ∧ w ≠ r.selfKey
        ∧ ∀ k ∈ keysOf r.infos, k ≠ r.selfKey → keyLess w k = false) := by
  refine ⟨?_, ?_, ?_⟩
  · -- size bound
    by_cases h1 : r.infos.length < r.config.maxInfos
    · have hg : handleAnnounceGate r ann = (true, false, zeroKey) := by
        simp [handleAnnounceGate, h1]
      by_cases hu : (r.update ann j).1 = true
      · obtain ⟨hi, _, _⟩ := handleAnnounce_state r ann j (by rw [hg]) hu
        rw [hi, hg]
        simp only [if_neg (by decide : ¬ false = true)]
        cases hl : mapLookup ann.key r.infos with
        | none =>
          rw [update_infos_length_none r ann j hl]
          omega
        | some info =>
          rw [update_infos_length_some r ann j (by simp [hl])]
          omega
      · rw [handleAnnounce_reject_update r ann j (by simpa using hu)]
        exact hle
    · by_cases hsome : (mapLookup ann.key r.infos).isSome
      · have hg : handleAnnounceGate r ann = (true, false, zeroKey) := by
          simp [handleAnnounceGate, h1, hsome]
        by_cases hu : (r.update ann j).1 = true
        · obtain ⟨hi, _, _⟩ := handleAnnounce_state r ann j (by rw [hg]) hu
          rw [hi, hg]
          simp only [if_neg (by decide : ¬ false = true)]
          rw [update_infos_length_some r ann j hsome]
          exact hle
        · rw [handleAnnounce_reject_update r ann j (by simpa using hu)]
          exact hle
      · have hnone : mapLookup ann.key r.infos = none := by
          rwa [← Option.not_isSome_iff_eq_none]
        set fw := worstFold (keysOf r.infos) r.selfKey with hfw
        have hg : handleAnnounceGate r ann = (keyLess ann.key fw.2, fw.1, fw.2) := by
          simp [handleAnnounceGate, h1, hsome, hfw]
        by_cases hkw : keyLess ann.key fw.2 = true
        · -- accept with eviction; fw.1 must be true
          have hfw1 : fw.1 = true := by
            cases hb : fw.1
            · obtain ⟨hz, _⟩ := (worstFold_spec (keysOf r.infos) r.selfKey).2
                (by rw [← hfw]; exact hb)
              rw [← hfw] at hz
              rw [hz] at hkw
              simp only [zeroKey] at hkw
              rw [keyLess_zero] at hkw
              exact absurd hkw (by decide)
            · rfl
          have hwmem := ((worstFold_spec (keysOf r.infos) r.selfKey).1
            (by rw [← hfw]; exact hfw1)).1
          rw [← hfw] at hwmem
          have hwne : fw.2 ≠ ann.key := by
            intro he
            rw [mapLookup_eq_none_iff_not_mem] at hnone
            exact hnone (he ▸ hwmem)
          have hires : (r.handleAnnounce ann j).1.infos
              = mapErase fw.2 (mapInsert ann.key (annInfo ann) r.infos) := by
            obtain ⟨hi, _, _⟩ := handleAnnounce_state r ann j
              (by rw [hg]; exact hkw)
              (by rw [update_none_accepts r ann j hnone])
            rw [hi, hg, update_none_accepts r ann j hnone]
            simp [hfw1, acceptUpdate]
          rw [hires]
          have hins : (mapLookup fw.2
              (mapInsert ann.key (annInfo ann) r.infos)).isSome := by
            rw [mapLookup_insert_ne _ _ hwne]
            rw [mapLookup_isSome_iff_mem]
            exact hwmem
          have hlen := length_mapErase_some hins
          rw [length_mapInsert] at hlen
          simp only [hnone, Option.isSome_none] at hlen
          simp only [Bool.false_eq_true, if_false] at hlen
          omega
        · rw [handleAnnounce_reject_gate r ann j (by rw [hg]; simpa using hkw)]
          exact hle
  · -- at-capacity characterization
    intro hge hnone
    have hsome : ¬ (mapLookup ann.key r.infos).isSome = true := by
      simp [hnone]
    have h1 : ¬ r.infos.length < r.config.maxInfos := by omega
    refine ⟨?_, ?_⟩
    · intro w hw
      have hg : handleAnnounceGate r ann = (keyLess ann.key w, true, w) := by
        simp [handleAnnounceGate, h1, hsome, hw]
      constructor
      · intro hno
        exact handleAnnounce_reject_gate r ann j (by rw [hg]; simpa using hno)
      · intro hyes
        have hwmem := ((worstFold_spec (keysOf r.infos) r.selfKey).1
          (by rw [hw])).1
        rw [hw] at hwmem
        have hwne : w ≠ ann.key := by
          intro he
          rw [mapLookup_eq_none_iff_not_mem] at hnone
          exact hnone (he ▸ hwmem)
        obtain ⟨hi, ht, _⟩ := handleAnnounce_state r ann j
          (by rw [hg]; exact hyes) (by rw [update_none_accepts r ann j hnone])
        rw [update_none_accepts r ann j hnone] at hi ht
        rw [hg] at hi ht
        simp [acceptUpdate] at hi ht
        refine ⟨?_, ?_, ?_⟩
        · rw [hi, mapLookup_erase_ne _ (Ne.symm hwne), mapLookup_insert_self]
        · rw [hi, mapLookup_erase_self (nodupKeys_mapInsert _ _ hnd)]
        · rw [ht, mapLookup_erase_self (nodupKeys_mapInsert _ _ hndT)]
    · intro hnf
      obtain ⟨hz, _⟩ := (worstFold_spec (keysOf r.infos) r.selfKey).2 hnf
      have hg1 : (handleAnnounceGate r ann).1 = false := by
        simp only [handleAnnounceGate, if_neg h1, if_neg hsome]
        show keyLess ann.key (worstFold (keysOf r.infos) r.selfKey).2 = false
        rw [hz]
        simp only [zeroKey]
        rw [keyLess_zero]
      exact handleAnnounce_reject_gate r ann j hg1
  · -- the worst key is the maximum non-self key
    intro w hw
    have hs := (worstFold_spec (keysOf r.infos) r.selfKey).1 (by rw [hw])
    rw [hw] at hs
    exact hs

/-! ### The link selection of `_lookup` (claim C7) -/

theorem pickStep_eq (b : Option Peer) (q : Peer) :
    (pickStep b q = some q
      ∧ (∀ bp, b = some bp → q.prio ≤ bp.prio ∧ q.time ≤ bp.time))
    ∨ (pickStep b q = b
      ∧ ∃ bp, b = some bp ∧ (bp.prio < q.prio ∨ bp.time < q.time)) := by
  cases b with
  | none => exact Or.inl ⟨rfl, by intro bp hb; cases hb⟩
  | some bp =>
    simp only [pickStep]
    split_ifs with h1 h2
    · exact Or.inr ⟨rfl, bp, rfl, Or.inl h1⟩
    · exact Or.inr ⟨rfl, bp, rfl, Or.inr h2⟩
    · refine Or.inl ⟨rfl, ?_⟩
      intro bp' hb
      cases hb
      omega

theorem pickLink_mono (ps : List Peer) :
    ∀ (bp p : Peer), pickLink (some bp) ps = some p →
      p.prio ≤ bp.prio ∧ p.time ≤ bp.time := by
  induction ps with
  | nil =>
    intro bp p h
    simp only [pickLink, List.foldl_nil] at h
    cases h
    exact ⟨le_refl _, le_refl _⟩
  | cons q qs ih =>
    intro bp p h
    rw [show pickLink (some bp) (q :: qs) = pickLink (pickStep (some bp) q) qs
      from rfl] at h
    rcases pickStep_eq (some bp) q with ⟨he, hle⟩ | ⟨he, bp', hb, _⟩
    · rw [he] at h
      have h2 := ih q p h
      have h3 := hle bp rfl
      exact ⟨le_trans h2.1 h3.1, le_trans h2.2 h3.2⟩
    · cases hb
      rw [he] at h
      exact ih _ p h

theorem pickLink_mem (ps : List Peer) :
    ∀ (b : Option Peer) (p : Peer), pickLink b ps = some p →
      p ∈ ps ∨ b = some p := by
  induction ps with
  | nil =>
    intro b p h
    right
    simpa [pickLink] using h
  | cons q qs ih =>
    intro b p h
    rw [show pickLink b (q :: qs) = pickLink (pickStep b q) qs from rfl] at h
    rcases ih _ p h with hmem | heq
    · exact Or.inl (List.mem_cons_of_mem _ hmem)
    · rcases pickStep_eq b q with ⟨he, _⟩ | ⟨he, bp, hb, _⟩
      · rw [he] at heq
        injection heq with hh
        exact Or.inl (hh ▸ List.mem_cons_self q qs)
      · rw [he] at heq
        exact Or.inr heq

theorem pickLink_nodom (ps : List Peer) :
    ∀ (b : Option Peer) (p : Peer), pickLink b ps = some p →
      ∀ x ∈ ps, ¬(x.prio ≤ p.prio ∧ x.time ≤ p.time
        ∧ (x.prio < p.prio ∨ x.time < p.time)) := by
  induction ps with
  | nil =>
    intro b p _ x hx
    simp at hx
  | cons q qs ih =>
    intro b p h x hx
    rw [show pickLink b (q :: qs) = pickLink (pickStep b q) qs from rfl] at h
    rcases List.mem_cons.mp hx with rfl | hxs
    · rcases pickStep_eq b x with ⟨he, _⟩ | ⟨he, bp, hb, hor⟩
      · rw [he] at h
        have hm := pickLink_mono qs x p h
        rintro ⟨h1, h2, h3 | h3⟩ <;> omega
      · rw [he, hb] at h
        have hm := pickLink_mono qs bp p h
        rintro ⟨h1, h2, _⟩
        rcases hor with ho | ho <;> omega
    · exact ih _ p h x hxs

/-- Claim C7, amended: the link chosen by the inner loop of `_lookup` is one
of the scanned links (or the carried-over best), is never strictly dominated
in `(prio, time)` by a scanned link, and is never worse than the
carried-over best; it need not be the lowest-prio link. -/
theorem claim_C7 (b : Option Peer) (ps : List Peer) (p : Peer)
    (h : pickLink b ps = some p) :
    (p ∈ ps ∨ b = some p)
    ∧ (∀ x ∈ ps, ¬(x.prio ≤ p.prio ∧ x.time ≤ p.time
        ∧ (x.prio < p.prio ∨ x.time < p.time)))
    ∧ (∀ bp, b = some bp → p.prio ≤ bp.prio ∧ p.time ≤ bp.time) := by
  refine ⟨pickLink_mem ps b p h, pickLink_nodom ps b p h, ?_⟩
  intro bp hb
  subst hb
  exact pickLink_mono ps bp p h

/-! ### Validation of stored announcements (claim C4) -/

theorem handleAnnounce_infos_lookup (r : Router) (ann : rAnnounce) (j : Nat)
    (hnd : nodupKeys r.infos) (k : publicKey) (i : routerInfo)
    (h : mapLookup k (r.handleAnnounce ann j).1.infos = some i) :
    (k = ann.key ∧ i = annInfo ann) ∨ mapLookup k r.infos = some i := by
  by_cases hg1 : (handleAnnounceGate r ann).1 = true
  · by_cases hu : (r.update ann j).1 = true
    · obtain ⟨hi, _, _⟩ := handleAnnounce_state r ann j hg1 hu
      rw [hi, update_true_state r ann j hu] at h
      have hacc : (acceptUpdate r ann j).infos
          = mapInsert ann.key (annInfo ann) r.infos := rfl
      by_cases hev : (handleAnnounceGate r ann).2.1 = true
      · rw [if_pos hev, hacc] at h
        have h2 := mapLookup_erase_some (nodupKeys_mapInsert _ _ hnd) h
        rcases mapLookup_insert_cases h2 with ⟨he, hv⟩ | ⟨_, hold⟩
        · exact Or.inl ⟨he, hv⟩
        · exact Or.inr hold
      · rw [if_neg hev, hacc] at h
        rcases mapLookup_insert_cases h with ⟨he, hv⟩ | ⟨_, hold⟩
        · exact Or.inl ⟨he, hv⟩
        · exact Or.inr hold
    · rw [handleAnnounce_reject_update r ann j (by simpa using hu)] at h
      exact Or.inr h
  · rw [handleAnnounce_reject_gate r ann j (by simpa using hg1)] at h
    exact Or.inr h

theorem getAnnounce_annInfo (ann : rAnnounce) :
    (annInfo ann).getAnnounce ann.key = ann := by
  cases ann
  rfl

/-- Claim C4: the (spec-modelled) checking announce handler drops invalid
announcements unchanged, and preserves the invariant that every stored info
reconstructs to an announcement passing `routerAnnounce.check`. -/
theorem claim_C4 (r : Router) (ann : rAnnounce) (j : Nat)
    (hnd : nodupKeys r.infos) :
    (ann.check = false → r.handleAnnounceChecked ann j = r)
    ∧ (GoodInfos r → GoodInfos (r.handleAnnounceChecked ann j)) := by
  constructor
  · intro hc
    simp [Router.handleAnnounceChecked, hc]
  · intro hg
    by_cases hc : ann.check = true
    · intro k i h
      rw [show r.handleAnnounceChecked ann j = (r.handleAnnounce ann j).1 by
        simp [Router.handleAnnounceChecked, hc]] at h
      rcases handleAnnounce_infos_lookup r ann j hnd k i h with ⟨he, hv⟩ | hold
      · subst he
        subst hv
        rw [getAnnounce_annInfo]
        exact hc
      · exact hg k i hold
    · have hcf : ann.check = false := by
        cases hb : ann.check
        · rfl
        · exact absurd hb hc
      rw [show r.handleAnnounceChecked ann j = r by
        simp [Router.handleAnnounceChecked, hcf]]
      exact hg

/-! ### Timer lifecycle (claim C6, amended) -/

/-- Claim C6, amended: a remote info's timer is first scheduled at
`routerTimeout`; its first fire marks the info expired (otherwise unchanged)
and reschedules the same timer at `2·routerTimeout`; the next fire deletes
the info and its timer (so deletion happens `3·routerTimeout` after
acceptance, not `2·routerTimeout`).  The local key's timer is scheduled at
`routerRefresh + jitter` and its fire only sets `refresh` and re-runs
`_fix`. -/
theorem claim_C6 (r : Router) (ann : rAnnounce) (j : Nat) (key : publicKey)
    (t : TimerEntry) (info : routerInfo)
    (hnd : nodupKeys r.infos) (hndT : nodupKeys r.timers) :
    (ann.key ≠ r.selfKey → (r.update ann j).1 = true →
      mapLookup ann.key (r.update ann j).2.timers
        = some ⟨r.nextTid, r.config.routerTimeout⟩)
    ∧ (ann.key = r.selfKey → (r.update ann j).1 = true →
      mapLookup ann.key (r.update ann j).2.timers
        = some ⟨r.nextTid, r.config.routerRefresh + j⟩)
    ∧ (key ≠ r.selfKey → mapLookup key r.timers = some t →
        mapLookup key r.infos = some info → info.expired = false →
        (r.fireTimer key t.tid).2 = true
        ∧ (r.fireTimer key t.tid).1.infos
            = mapInsert key { info with expired := true } r.infos
        ∧ (r.fireTimer key t.tid).1.timers
            = mapInsert key ⟨t.tid, 2 * r.config.routerTimeout⟩ r.timers)
    ∧ (key ≠ r.selfKey → mapLookup key r.timers = some t →
        mapLookup key r.infos = some info → info.expired = true →
        mapLookup key (r.fireTimer key t.tid).1.infos = none
        ∧ mapLookup key (r.fireTimer key t.tid).1.timers = none
        ∧ (r.fireTimer key t.tid).2 = true)
    ∧ (key = r.selfKey → mapLookup key r.timers = some t →
        r.fireTimer key t.tid = ({ r with refresh := true }, true)) := by
  refine ⟨?_, ?_, ?_, ?_, ?_⟩
  · intro hne hu
    rw [update_true_state r ann j hu]
    simp [acceptUpdate, mapLookup_insert_self, updateDelay, hne]
  · intro hself hu
    rw [update_true_state r ann j hu]
    simp [acceptUpdate, mapLookup_insert_self, updateDelay, hself]
  · intro hne ht hi hexp
    refine ⟨?_, ?_, ?_⟩ <;> simp [Router.fireTimer, ht, hne, hi, hexp]
  · intro hne ht hi hexp
    refine ⟨?_, ?_, ?_⟩ <;>
      simp [Router.fireTimer, ht, hne, hi, hexp,
        mapLookup_erase_self hnd, mapLookup_erase_self hndT]
  · intro hself ht
    subst hself
    simp [Router.fireTimer, ht]

/-! ### Port allocation (claim C10) -/

theorem allocPortGo_spec (used : List Nat) :
    ∀ (fuel idx : Nat),
      (∃ jj, idx ≤ jj ∧ jj < idx + fuel ∧ jj ∉ used) →
      (allocPortGo used fuel idx ∉ used
        ∧ idx ≤ allocPortGo used fuel idx
        ∧ ∀ q, idx ≤ q → q < allocPortGo used fuel idx → q ∈ used) := by
  intro fuel
  induction fuel with
  | zero =>
    intro idx h
    obtain ⟨jj, h1, h2, _⟩ := h
    omega
  | succ fuel ih =>
    intro idx h
    by_cases hin : idx ∈ used
    · have hnext : ∃ jj, idx + 1 ≤ jj ∧ jj < (idx + 1) + fuel ∧ jj ∉ used := by
        obtain ⟨jj, h1, h2, h3⟩ := h
        refine ⟨jj, ?_, by omega, h3⟩
        rcases Nat.eq_or_lt_of_le h1 with he | hlt
        · exact absurd (he ▸ hin) h3
        · omega
      obtain ⟨r1, r2, r3⟩ := ih (idx + 1) hnext
      rw [show allocPortGo used (fuel + 1) idx = allocPortGo used fuel (idx + 1)
        by simp [allocPortGo, hin]]
      refine ⟨r1, by omega, ?_⟩
      intro q hq1 hq2
      rcases Nat.eq_or_lt_of_le hq1 with he | hlt
      · exact he ▸ hin
      · exact r3 q (by omega) hq2
    · rw [show allocPortGo used (fuel + 1) idx = idx by simp [allocPortGo, hin]]
      exact ⟨hin, le_refl idx, by omega⟩

theorem exists_free_port (used : List Nat) (idx : Nat) :
    ∃ jj, idx ≤ jj ∧ jj < idx + (used.length + 1) ∧ jj ∉ used := by
  by_contra h
  push_neg at h
  have hsub : List.range' idx (used.length + 1) ⊆ used := by
    intro x hx
    rw [List.mem_range'_1] at hx
    exact h x hx.1 hx.2
  have hnd : (List.range' idx (used.length + 1)).Nodup := List.nodup_range' _ _
  have hlen := (hnd.subperm hsub).length_le
  rw [List.length_range'] at hlen
  omega

/-! ### `handleMerkleReq` (claim C5) -/

namespace merkle

theorem merkleLoop_follow_two (infos : List (List Bool × Nat))
    {n : ONode} {pfx : List Bool} {plen : Nat} {d da dby : Nat}
    {a b c e : ONode} {p : List Bool} {l : Nat}
    (h : follow n pfx plen
      = (ONode.mk d (ONode.mk da a b) (ONode.mk dby c e), p, l)) :
    merkleLoop infos n pfx plen = MerkleReply.res p l d := by
  revert h
  induction n generalizing pfx plen d da dby a b c e p l with
  | nil =>
    intro h
    simp [follow] at h
  | mk dig lft rgt ihl ihr =>
    intro h
    cases lft with
    | nil =>
      cases rgt with
      | nil => simp [follow] at h
      | mk drr c2 e2 =>
        rw [show follow (ONode.mk dig ONode.nil (ONode.mk drr c2 e2)) pfx plen
            = follow (ONode.mk drr c2 e2) (pfx.set plen true) (plen + 1)
          from rfl] at h
        rw [show merkleLoop infos
              (ONode.mk dig ONode.nil (ONode.mk drr c2 e2)) pfx plen
            = merkleLoop infos (ONode.mk drr c2 e2) (pfx.set plen true)
              (plen + 1) from rfl]
        exact ihr h
    | mk dll a2 b2 =>
      cases rgt with
      | nil =>
        rw [show follow (ONode.mk dig (ONode.mk dll a2 b2) ONode.nil) pfx plen
            = follow (ONode.mk dll a2 b2) (pfx.set plen false) (plen + 1)
          from rfl] at h
        rw [show merkleLoop infos
              (ONode.mk dig (ONode.mk dll a2 b2) ONode.nil) pfx plen
            = merkleLoop infos (ONode.mk dll a2 b2) (pfx.set plen false)
              (plen + 1) from rfl]
        exact ihl h
      | mk drr c2 e2 =>
        rw [show follow (ONode.mk dig (ONode.mk dll a2 b2)
              (ONode.mk drr c2 e2)) pfx plen
            = (ONode.mk dig (ONode.mk dll a2 b2) (ONode.mk drr c2 e2),
              pfx, plen) from rfl] at h
        rw [Prod.mk.injEq, Prod.mk.injEq] at h
        obtain ⟨hn, hp, hl⟩ := h
        injection hn with hd _ _
        rw [show merkleLoop infos (ONode.mk dig (ONode.mk dll a2 b2)
            (ONode.mk drr c2 e2)) pfx plen
          = MerkleReply.res pfx plen dig from rfl]
        rw [hp, hl, hd]

theorem merkleLoop_follow_leaf (infos : List (List Bool × Nat))
    {n : ONode} {pfx : List Bool} {plen d : Nat} {p : List Bool} {l : Nat}
    (h : follow n pfx plen = (ONode.mk d ONode.nil ONode.nil, p, l)) :
    merkleLoop infos n pfx plen =
      (if l = KeyBits then
        match mapLookup p infos with
        | some payload => MerkleReply.ann p payload
        | none => MerkleReply.panic
      else MerkleReply.panic) := by
  revert h
  induction n generalizing pfx plen d p l with
  | nil =>
    intro h
    simp [follow] at h
  | mk dig lft rgt ihl ihr =>
    intro h
    cases lft with
    | nil =>
      cases rgt with
      | nil =>
        rw [show follow (ONode.mk dig ONode.nil ONode.nil) pfx plen
            = (ONode.mk dig ONode.nil ONode.nil, pfx, plen) from rfl] at h
        rw [Prod.mk.injEq, Prod.mk.injEq] at h
        obtain ⟨_, hp, hl⟩ := h
        rw [show merkleLoop infos (ONode.mk dig ONode.nil ONode.nil) pfx plen
            = (if plen = KeyBits then
                match mapLookup pfx infos with
                | some payload => MerkleReply.ann pfx payload
                | none => MerkleReply.panic
              else MerkleReply.panic) from rfl]
        rw [hp, hl]
      | mk drr c2 e2 =>
        rw [show follow (ONode.mk dig ONode.nil (ONode.mk drr c2 e2)) pfx plen
            = follow (ONode.mk drr c2 e2) (pfx.set plen true) (plen + 1)
          from rfl] at h
        rw [show merkleLoop infos
              (ONode.mk dig ONode.nil (ONode.mk drr c2 e2)) pfx plen
            = merkleLoop infos (ONode.mk drr c2 e2) (pfx.set plen true)
              (plen + 1) from rfl]
        exact ihr h
    | mk dll a2 b2 =>
      cases rgt with
      | nil =>
        rw [show follow (ONode.mk dig (ONode.mk dll a2 b2) ONode.nil) pfx plen
            = follow (ONode.mk dll a2 b2) (pfx.set plen false) (plen + 1)
          from rfl] at h
        rw [show merkleLoop infos
              (ONode.mk dig (ONode.mk dll a2 b2) ONode.nil) pfx plen
            = merkleLoop infos (ONode.mk dll a2 b2) (pfx.set plen false)
              (plen + 1) from rfl]
        exact ihl h
      | mk drr c2 e2 =>
        simp [follow] at h

theorem follow_leaf_wf {n : ONode} {pfx : List Bool} {plen d : Nat}
    {p : List Bool} {l : Nat}
    (hwf : WF plen n)
    (h : follow n pfx plen = (ONode.mk d ONode.nil ONode.nil, p, l)) :
    l = KeyBits := by
  revert h hwf
  induction n generalizing pfx plen d p l with
  | nil =>
    intro hwf h
    simp [follow] at h
  | mk dig lft rgt ihl ihr =>
    intro hwf h
    cases lft with
    | nil =>
      cases rgt with
      | nil =>
        rw [show follow (ONode.mk dig ONode.nil ONode.nil) pfx plen
            = (ONode.mk dig ONode.nil ONode.nil, pfx, plen) from rfl] at h
        rw [Prod.mk.injEq, Prod.mk.injEq] at h
        obtain ⟨_, _, hl⟩ := h
        cases hwf with
        | leaf => exact hl.symm
        | node d0 dig0 l0 r0 hd hne hwl hwr => simp at hne
      | mk drr c2 e2 =>
        rw [show follow (ONode.mk dig ONode.nil (ONode.mk drr c2 e2)) pfx plen
            = follow (ONode.mk drr c2 e2) (pfx.set plen true) (plen + 1)
          from rfl] at h
        cases hwf with
        | node d0 dig0 l0 r0 hd hne hwl hwr => exact ihr hwr h
    | mk dll a2 b2 =>
      cases rgt with
      | nil =>
        rw [show follow (ONode.mk dig (ONode.mk dll a2 b2) ONode.nil) pfx plen
            = follow (ONode.mk dll a2 b2) (pfx.set plen false) (plen + 1)
          from rfl] at h
        cases hwf with
        | node d0 dig0 l0 r0 hd hne hwl hwr => exact ihl hwl h
      | mk drr c2 e2 =>
        simp [follow] at h

theorem follow_leaf_covers (infos : List (List Bool × Nat))
    {n : ONode} {pfx : List Bool} {plen d : Nat} {p : List Bool} {l : Nat}
    (hcov : Covers infos n pfx plen)
    (h : follow n pfx plen = (ONode.mk d ONode.nil ONode.nil, p, l)) :
    ∃ v, mapLookup p infos = some v := by
  revert h hcov
  induction n generalizing pfx plen d p l with
  | nil =>
    intro hcov h
    simp [follow] at h
  | mk dig lft rgt ihl ihr =>
    intro hcov h
    cases lft with
    | nil =>
      cases rgt with
      | nil =>
        rw [show follow (ONode.mk dig ONode.nil ONode.nil) pfx plen
            = (ONode.mk dig ONode.nil ONode.nil, pfx, plen) from rfl] at h
        rw [Prod.mk.injEq, Prod.mk.injEq] at h
        obtain ⟨_, hp, _⟩ := h
        cases hcov with
        | leaf dig0 pfx0 plen0 v hv => exact ⟨v, hp ▸ hv⟩
        | node dig0 l0 r0 pfx0 plen0 hne hcl hcr => simp at hne
      | mk drr c2 e2 =>
        rw [show follow (ONode.mk dig ONode.nil (ONode.mk drr c2 e2)) pfx plen
            = follow (ONode.mk drr c2 e2) (pfx.set plen true) (plen + 1)
          from rfl] at h
        cases hcov with
        | node dig0 l0 r0 pfx0 plen0 hne hcl hcr => exact ihr hcr h
    | mk dll a2 b2 =>
      cases rgt with
      | nil =>
        rw [show follow (ONode.mk dig (ONode.mk dll a2 b2) ONode.nil) pfx plen
            = follow (ONode.mk dll a2 b2) (pfx.set plen false) (plen + 1)
          from rfl] at h
        cases hcov with
        | node dig0 l0 r0 pfx0 plen0 hne hcl hcr => exact ihl hcl h
      | mk drr c2 e2 =>
        simp [follow] at h

/-- Claim C5: `handleMerkleReq` sends nothing when fewer than `plen` bits
match; otherwise, after the single-child chain is followed, a two-children
node yields exactly one `MerkleRes` with the extended prefix, length and
that node's digest, and a leaf (in a well-formed, info-covered tree) sits at
full key depth and yields the stored announcement for the extended
prefix. -/
theorem claim_C5 (merk : ONode) (infos : List (List Bool × Nat))
    (req : MerkleReqB) :
    ((nodeForBits merk (req.pfx.take req.plen)).2 < req.plen →
      handleMerkleReq merk infos req = MerkleReply.nothing)
    ∧ ((nodeForBits merk (req.pfx.take req.plen)).2 = req.plen →
        (∀ (d da dby : Nat) (a b c e : ONode) (p : List Bool) (l : Nat),
          follow (nodeForBits merk (req.pfx.take req.plen)).1 req.pfx req.plen
            = (ONode.mk d (ONode.mk da a b) (ONode.mk dby c e), p, l) →
          handleMerkleReq merk infos req = MerkleReply.res p l d)
        ∧ (∀ (d : Nat) (p : List Bool) (l : Nat),
          follow (nodeForBits merk (req.pfx.take req.plen)).1 req.pfx req.plen
            = (ONode.mk d ONode.nil ONode.nil, p, l) →
          WF req.plen (nodeForBits merk (req.pfx.take req.plen)).1 →
          Covers infos (nodeForBits merk (req.pfx.take req.plen)).1
            req.pfx req.plen →
          l = KeyBits
          ∧ ∃ v, mapLookup p infos = some v
            ∧ handleMerkleReq merk infos req = MerkleReply.ann p v)) := by
  refine ⟨?_, fun hm => ⟨?_, ?_⟩⟩
  · intro hlt
    have hne : (nodeForBits merk (req.pfx.take req.plen)).2 ≠ req.plen := by
      omega
    simp [handleMerkleReq, hne]
  · intro d da dby a b c e p l h
    have heq : handleMerkleReq merk infos req
        = merkleLoop infos (nodeForBits merk (req.pfx.take req.plen)).1
          req.pfx req.plen := by
      simp [handleMerkleReq, hm]
    rw [heq]
    exact merkleLoop_follow_two infos h
  · intro d p l h hwf hcov
    have hl := follow_leaf_wf hwf h
    obtain ⟨v, hv⟩ := follow_leaf_covers infos hcov h
    refine ⟨hl, v, hv, ?_⟩
    have heq : handleMerkleReq merk infos req
        = merkleLoop infos (nodeForBits merk (req.pfx.take req.plen)).1
          req.pfx req.plen := by
      simp [handleMerkleReq, hm]
    rw [heq, merkleLoop_follow_leaf infos h, if_pos hl, hv]

theorem set_replicate_false (n : Nat) :
    ∀ i : Nat, (List.replicate n false).set i false = List.replicate n false := by
  induction n with
  | zero => intro i; rfl
  | succ m ih =>
    intro i
    cases i with
    | zero => rfl
    | succ ii =>
      show false :: (List.replicate m false).set ii false
        = false :: List.replicate m false
      rw [ih ii]

theorem chainTree_ne_nil (m : Nat) : chainTree m ≠ ONode.nil := by
  cases m <;> simp [chainTree]

theorem wf_chainTree : ∀ (n d : Nat), d + n = KeyBits → WF d (chainTree n) := by
  intro n
  induction n with
  | zero =>
    intro d h
    have hd : d = KeyBits := by omega
    rw [chainTree, hd]
    exact WF.leaf 0
  | succ m ih =>
    intro d h
    rw [chainTree]
    exact WF.node d 0 (chainTree m) ONode.nil (by omega)
      (Or.inl (chainTree_ne_nil m)) (ih (d + 1) (by omega)) (WF.nil (d + 1))

theorem covers_chainTree (infos : List (List Bool × Nat)) (v : Nat)
    (hv : mapLookup (List.replicate KeyBits false) infos = some v) :
    ∀ (n plen : Nat),
      Covers infos (chainTree n) (List.replicate KeyBits false) plen := by
  intro n
  induction n with
  | zero =>
    intro plen
    exact Covers.leaf 0 _ plen v hv
  | succ m ih =>
    intro plen
    rw [chainTree]
    refine Covers.node 0 (chainTree m) ONode.nil _ plen
      (Or.inl (chainTree_ne_nil m)) ?_ (Covers.nil _ _)
    rw [set_replicate_false]
    exact ih (plen + 1)

theorem follow_chain : ∀ (n plen : Nat), plen + n = KeyBits →
    follow (chainTree n) (List.replicate KeyBits false) plen
      = (ONode.mk 0 ONode.nil ONode.nil, List.replicate KeyBits false,
        KeyBits) := by
  intro n
  induction n with
  | zero =>
    intro plen h
    have hd : plen = KeyBits := by omega
    rw [chainTree, hd]
    rfl
  | succ m ih =>
    intro plen h
    obtain ⟨dd, ll, rr, hm⟩ : ∃ dd ll rr, chainTree m = ONode.mk dd ll rr := by
      cases m <;> exact ⟨_, _, _, rfl⟩
    rw [chainTree, hm]
    rw [show follow (ONode.mk 0 (ONode.mk dd ll rr) ONode.nil)
          (List.replicate KeyBits false) plen
        = follow (ONode.mk dd ll rr)
          ((List.replicate KeyBits false).set plen false) (plen + 1)
      from rfl]
    rw [set_replicate_false, ← hm]
    exact ih (plen + 1) (by omega)

end merkle

/-- Claim C10: `peers.addPeer` assigns the smallest port not in use starting
from 1; port 0 is never assigned; the peer is registered under the new
port. -/
theorem claim_C10 (m : List (Nat × publicKey)) (key : publicKey) :
    (addPeer m key).1 ∉ keysOf m
    ∧ 1 ≤ (addPeer m key).1
    ∧ (∀ q, 1 ≤ q → q < (addPeer m key).1 → q ∈ keysOf m)
    ∧ mapLookup (addPeer m key).1 (addPeer m key).2 = some key := by
  obtain ⟨r1, r2, r3⟩ := allocPortGo_spec (keysOf m) (keysOf m).length.succ 1
    (by
      obtain ⟨jj, h1, h2, h3⟩ := exists_free_port (keysOf m) 1
      exact ⟨jj, h1, by omega, h3⟩)
  refine ⟨r1, r2, r3, ?_⟩
  exact mapLookup_insert_self _ _ _

/-! ### Witnesses and counterexamples at concrete instances -/

theorem claim_C1_witness :
    (rC1.update annC6 0).1 = false
    ∧ (rC1.handleAnnounce annC6 0).2.2 = [] :=
  (claim_C1 rC1 annC6 0 (mkInfo [1] 0) (by decide)).2
    (by decide) (by decide) (by decide)

theorem claim_C2_witness :
    (trC2.watermark ≤ (rEmpty.getDist trC2.path rEmpty.selfKey).1
      ∧ (rEmpty.lookup trC2).2.1 = none)
    ∧ (rC7.lookup trC7).2.2.watermark < trC7.watermark :=
  ⟨⟨by decide, claim_C2.1 rEmpty trC2 (by decide)⟩,
    (claim_C2.2.1 rC7 trC7 peerB (by decide)).2⟩

theorem claim_C3_witness :
    (rC3.handleAnnounce annC3 0).1.infos.length ≤ rC3.config.maxInfos
    ∧ mapLookup annC3.key (rC3.handleAnnounce annC3 0).1.infos
        = some (annInfo annC3)
    ∧ mapLookup [5] (rC3.handleAnnounce annC3 0).1.infos = none
    ∧ mapLookup [5] (rC3.handleAnnounce annC3 0).1.timers = none := by
  obtain ⟨hA, hB, hC⟩ := claim_C3 rC3 annC3 0 (by decide) (by decide) (by decide)
  obtain ⟨hstored, hev1, hev2⟩ :=
    ((hB (by decide) (by decide)).1 [5] (by decide)).2 (by decide)
  exact ⟨hA, hstored, hev1, hev2⟩

theorem claim_C4_witness :
    annC9.check = false ∧ rEmpty.handleAnnounceChecked annC9 0 = rEmpty :=
  ⟨by decide, (claim_C4 rEmpty annC9 0 (by decide)).1 (by decide)⟩

theorem claim_C5_witness :
    merkle.WF 0 merk5
    ∧ merkle.handleMerkleReq merk5 infos5 req5
        = merkle.MerkleReply.ann zeroBits 7 := by
  have hwf : merkle.WF 0 merk5 :=
    merkle.wf_chainTree merkle.KeyBits 0 (by omega)
  have hv7 : mapLookup zeroBits infos5 = some 7 := by
    simp [infos5, mapLookup]
  have hcov : merkle.Covers infos5 merk5 zeroBits 0 :=
    merkle.covers_chainTree infos5 7 hv7 merkle.KeyBits 0
  have hfollow : merkle.follow
      (merkle.nodeForBits merk5 (req5.pfx.take req5.plen)).1 req5.pfx req5.plen
      = (merkle.ONode.mk 0 merkle.ONode.nil merkle.ONode.nil, zeroBits,
        merkle.KeyBits) :=
    merkle.follow_chain merkle.KeyBits 0 (by omega)
  obtain ⟨hK, v, hv, hh⟩ :=
    ((merkle.claim_C5 merk5 infos5 req5).2 rfl).2 0 zeroBits merkle.KeyBits
      hfollow hwf hcov
  rw [hv7] at hv
  injection hv with hv'
  rw [← hv'] at hh
  exact ⟨hwf, hh⟩

theorem claim_C6_witness :
    mapLookup annC6.key (rEmpty.update annC6 0).2.timers
      = some ⟨rEmpty.nextTid, rEmpty.config.routerTimeout⟩
    ∧ (rC6a.fireTimer [1] 0).2 = true
    ∧ (rC6a.fireTimer [1] 0).1.timers
      = mapInsert [1] ⟨0, 2 * rC6a.config.routerTimeout⟩ rC6a.timers := by
  obtain ⟨c1a, _, _, _, _⟩ :=
    claim_C6 rEmpty annC6 0 [1] ⟨0, 10⟩ (annInfo annC6) (by decide) (by decide)
  obtain ⟨_, _, c3, _, _⟩ :=
    claim_C6 rC6a annC6 0 [1] ⟨0, 10⟩ (annInfo annC6) (by decide) (by decide)
  obtain ⟨f1, _, f3⟩ := c3 (by decide) (by decide) (by decide) (by decide)
  exact ⟨c1a (by decide) (by decide), f1, f3⟩

theorem claim_C6_cex :
    mapLookup [1] rC6a.timers = some ⟨0, rEmpty.config.routerTimeout⟩
    ∧ mapLookup [1] rC6b.timers = some ⟨0, 2 * rEmpty.config.routerTimeout⟩
    ∧ mapLookup [1] rC6b.infos = some { annInfo annC6 with expired := true }
    ∧ ¬ (2 * rEmpty.config.routerTimeout = rEmpty.config.routerTimeout)
    ∧ mapLookup [1] ((rC6b.fireTimer [1] 0).1).infos = none := by decide

theorem claim_C7_witness :
    pickLink none [peerB, peerA] = some peerB
    ∧ ∀ x ∈ [peerB, peerA],
        ¬(x.prio ≤ peerB.prio ∧ x.time ≤ peerB.time
          ∧ (x.prio < peerB.prio ∨ x.time < peerB.time)) :=
  ⟨by decide, (claim_C7 none [peerB, peerA] peerB (by decide)).2.1⟩

theorem claim_C7_cex :
    (rC7.lookup trC7).2.1 = some peerB
    ∧ peerA.prio < peerB.prio
    ∧ rC7.peers = [([1], [peerB, peerA])]
    ∧ (rC7.getDist trC7.path [1]).1
        < (rC7.getDist trC7.path rC7.selfKey).1 := by decide

theorem claim_C8_witness :
    wire.routerSigReq.decode (reqW.encode []) = some reqW
    ∧ wire.routerSigRes.decode (resW.encode []) = some resW
    ∧ wire.routerAnnounce.decode (annW.encode []) = some annW
    ∧ wire.routerMerkleReq.decode (mreqW.encode []) = some mreqW
    ∧ wire.routerMerkleRes.decode (mresW.encode []) = some mresW
    ∧ wire.routerAnnounce.decode (annW.encode [] ++ [0]) = none := by
  obtain ⟨h1, h2, h3, h4, h5⟩ :=
    claim_C8 reqW resW annW mreqW mresW [0] (by decide) (by decide) (by decide)
      (by decide) (by decide) (by decide) (by decide) (by decide) (by decide)
  exact ⟨h1.1, h2.1, h3.1, h4.1, h5.1, h3.2⟩

theorem claim_C9_witness :
    mapLookup annC9.key rEmpty.infos = none
    ∧ annC9.check = false
    ∧ (rEmpty.update annC9 0).1 = true :=
  ⟨by decide, by decide, (claim_C9 rEmpty annC9 0 (by decide)).1⟩

theorem claim_C10_witness :
    (addPeer mC10 [7]).1 = 3
    ∧ (addPeer mC10 [7]).1 ∉ keysOf mC10
    ∧ 2 ∈ keysOf mC10 :=
  ⟨by decide, (claim_C10 mC10 [7]).1,
    (claim_C10 mC10 [7]).2.2.1 2 (by decide) (by decide)⟩

end Ironwood
